import Mathlib

/-!
Dotfiles installer TUI: menu state machine, plan loop and output classifier.

A shallow embedding of `src/main.go`.

* Go structs become Lean structures with the same field names.
* Go `int` cursor fields are `Int`.  Every arithmetic step the program performs
  on them (`++` below a list length, `--` above zero, `len(..) - 1`) stays inside
  the 64-bit range, so no wrap-around has to be modelled.
* Indexing a slice out of range panics in Go; `Update` therefore returns an
  `Option`, with `none` standing for the panic.
* A `map[string]bool` value is either the nil map (`none`) or a map built by
  `make` (`some entries`, the entries being a function
  `String → Option Bool`, `none` for an absent key).  Reading a key (`m[k]`) gives `false` when the key is
  absent or the map is nil; writing a key inserts it, and panics on the nil map.
* The value receiver of `Update` copies the struct but shares the map and the
  slices, so the writes of the space key are visible in the returned model;
  the embedding passes the state explicitly.
* Go strings are taken to be well-formed text and are embedded as `String`,
  the string functions working on the list of characters.
-/

namespace Dotfiles

/-! ## Data model -/

/-- Go `type InstallStep struct`. -/
structure InstallStep where
  Name : String
  Description : String
  Function : String
  Selected : Bool
  Required : Bool
deriving DecidableEq, Repr

/-- Go `type Category struct`. -/
structure Category where
  Name : String
  Steps : List InstallStep
deriving DecidableEq, Repr

/-- A value of the Go type `map[string]bool`: `none` is the nil map (the zero value of the
type), `some entries` a map built by `make`, whose entries give `none` for an absent key. -/
abbrev GoMap : Type := Option (String → Option Bool)

/-- Reading a key in the entries of a made map: the zero value when the key is absent. -/
def entriesGet (entries : String → Option Bool) (k : String) : Bool := (entries k).getD false

/-- Writing a key in the entries of a made map. -/
def entriesSet (entries : String → Option Bool) (k : String) (v : Bool) : String → Option Bool :=
  fun j => if j = k then some v else entries j

/-- Go `make(map[string]bool)`. -/
def mapEmpty : GoMap := some (fun _ => none)

/-- Go `m[k]` read on a `map[string]bool`: the zero value when the key is absent, also on the
nil map. -/
def mapGet (m : GoMap) (k : String) : Bool :=
  match m with
  | none => false
  | some entries => entriesGet entries k

/-- Go `v, ok := m[k]`: the entry of a key, `none` when the key is absent or the map is nil. -/
def mapLookup (m : GoMap) (k : String) : Option Bool :=
  match m with
  | none => none
  | some entries => entries k

/-- Go `m[k] = v`; `none` is the run-time panic of an assignment to an entry of the nil map. -/
def mapSet (m : GoMap) (k : String) (v : Bool) : Option GoMap :=
  match m with
  | none => none
  | some entries => some (some (entriesSet entries k v))

/-- Go `type model struct`. -/
structure model where
  categories : List Category
  currentCategory : Int
  currentStep : Int
  installing : Bool
  installProgress : String
  currentStepName : String
  installComplete : Bool
  errors : List String
  warnings : List String
  selectedSteps : GoMap
  installationStarted : Bool

/-- The messages `Update` discriminates on.  A `tea.KeyMsg` is represented by the
result of its `String()` method; `other` is any message of another type
(including the nil message). -/
inductive Msg where
  | KeyMsg (key : String)
  | installProgressMsg (text : String)
  | installStepMsg (text : String)
  | installCompleteMsg
  | installErrorMsg (text : String)
  | installWarningMsg (text : String)
  | other
deriving DecidableEq, Repr

/-- The commands `Update` returns: `nil`, `tea.Quit`, `m.startInstallation()` and
`m.waitForInstallation()`. -/
inductive Cmd where
  | nil
  | Quit
  | startInstallation
  | waitForInstallation
deriving DecidableEq, Repr

/-- Go slice indexing `l[i]` with an `int` index; `none` is the run-time panic. -/
def index? {α : Type} (l : List α) (i : Int) : Option α :=
  if i < 0 then none else l[i.toNat]?

/-- Go `len(l)` as an `int`. -/
def len {α : Type} (l : List α) : Int := (l.length : Int)

/-! ## The built-in catalog and `initialModel` -/

/-- The `categories` literal of `initialModel`. -/
def builtinCategories : List Category :=
  [
    { Name := "Graphics Drivers",
      Steps := [
        ⟨"NVIDIA Drivers", "Install NVIDIA drivers (will prompt for DKMS, Open, or Nouveau options)", "configure_nvidia", false, false⟩,
        ⟨"AMD Drivers", "Install AMD open-source drivers with Vulkan support", "configure_amd", false, false⟩,
        ⟨"Intel Drivers", "Install Intel integrated graphics drivers with Vulkan support", "configure_intel", false, false⟩
      ] },
    { Name := "Development Tools",
      Steps := [
        ⟨"Visual Studio Code", "Microsoft's popular code editor", "install_vscode", true, false⟩,
        ⟨"Neovim", "Modern Vim-based text editor (included in core)", "install_neovim", true, false⟩,
        ⟨"Git", "Version control system (included in core)", "install_git", true, false⟩,
        ⟨"Docker", "Containerization platform", "install_docker", false, false⟩,
        ⟨"Node.js", "JavaScript runtime and npm", "install_node", true, false⟩,
        ⟨"MongoDB", "NoSQL database", "install_mongodb", false, false⟩
      ] },
    { Name := "Web Browsers",
      Steps := [
        ⟨"Zen Browser", "Privacy-focused Firefox-based browser", "install_zen", true, false⟩,
        ⟨"Firefox", "Mozilla's web browser", "install_firefox", false, false⟩,
        ⟨"Chromium", "Open-source web browser", "install_chromium", false, false⟩
      ] },
    { Name := "Communication",
      Steps := [
        ⟨"Discord (Vesktop)", "Discord client with better Wayland support", "install_vesktop", true, false⟩,
        ⟨"Telegram", "Cross-platform messaging app", "install_telegram", false, false⟩,
        ⟨"Signal", "Privacy-focused messaging app", "install_signal", false, false⟩
      ] },
    { Name := "Media & Entertainment",
      Steps := [
        ⟨"Spotify (Spotube)", "Open-source Spotify client", "install_spotube", true, false⟩,
        ⟨"VLC", "Versatile media player", "install_vlc", false, false⟩,
        ⟨"GIMP", "GNU Image Manipulation Program", "install_gimp", false, false⟩,
        ⟨"Pinta", "Simple drawing and image editing", "install_pinta", true, false⟩,
        ⟨"OBS Studio", "Open-source streaming and recording software", "install_obs", false, false⟩
      ] },
    { Name := "Office & Productivity",
      Steps := [
        ⟨"LibreOffice", "Full-featured office suite", "install_libreoffice", false, false⟩,
        ⟨"Thunderbird", "Email client from Mozilla", "install_thunderbird", false, false⟩
      ] },
    { Name := "Gaming",
      Steps := [
        ⟨"Steam", "Gaming platform with library management", "install_steam", false, false⟩
      ] },
    { Name := "Virtualization",
      Steps := [
        ⟨"QEMU/KVM", "Complete virtualization stack with virt-manager GUI", "install_qemu_kvm", false, false⟩,
        ⟨"VirtualBox", "Oracle VirtualBox with host modules", "install_virtualbox", false, false⟩,
        ⟨"VMware Tools", "Open-source VMware tools and utilities", "install_vmware_tools", false, false⟩,
        ⟨"Container Runtimes", "Podman, Buildah, and rootless containers", "install_container_runtimes", false, false⟩,
        ⟨"Virtualization Dev Tools", "Vagrant, Packer, Terraform, Ansible", "install_virt_dev_tools", false, false⟩,
        ⟨"Wine", "Windows application compatibility layer", "install_wine", false, false⟩,
        ⟨"Check Virtualization Support", "Verify hardware virtualization capabilities", "check_virtualization_support", true, false⟩
      ] },
    { Name := "Terminal Applications",
      Steps := [
        ⟨"Terminal Emulator (Kitty)", "Modern terminal emulator with GPU acceleration", "install_terminal_emulator", true, false⟩,
        ⟨"System Monitor (btop)", "Resource monitor with modern interface", "install_system_monitor", true, false⟩,
        ⟨"bat", "Better version of cat with syntax highlighting", "install_bat", true, false⟩,
        ⟨"Fastfetch", "System information display tool", "install_fastfetch_app", true, false⟩,
        ⟨"tldr", "Simplified man pages with examples", "install_tldr", true, false⟩,
        ⟨"onefetch", "Git repository information tool", "install_onefetch", true, false⟩
      ] },
    { Name := "File Managers",
      Steps := [
        ⟨"Nautilus", "GNOME file manager with extensions", "install_nautilus", true, false⟩,
        ⟨"Superfile", "Modern terminal-based file manager", "install_superfile", false, false⟩
      ] },
    { Name := "System Applications",
      Steps := [
        ⟨"Calculator", "GNOME calculator application", "install_calculator", true, false⟩,
        ⟨"Software Center (Discover)", "KDE application for managing software", "install_discover", false, false⟩,
        ⟨"Bluetooth Manager (Blueman)", "Graphical Bluetooth device manager", "install_blueman", true, false⟩,
        ⟨"Text Editor (Neovim)", "Modern Vim-based text editor", "install_neovim_app", true, false⟩
      ] },
    { Name := "Entertainment",
      Steps := [
        ⟨"cmatrix", "Terminal Matrix effect screensaver", "install_cmatrix", false, false⟩,
        ⟨"cbonsai", "ASCII art bonsai tree generator", "install_cbonsai", false, false⟩,
        ⟨"pipes-rs", "Terminal screensaver with animated pipes", "install_pipes_rs", false, false⟩,
        ⟨"astroterm", "Terminal-based astronomy application", "install_astroterm", false, false⟩
      ] },
    { Name := "System Configuration",
      Steps := [
        ⟨"Core Packages", "Essential system packages and dependencies", "install_packages", true, true⟩,
        ⟨"AUR Helper (paru)", "Install paru AUR helper only", "install_aur_helper", true, true⟩,
        ⟨"Hyprland WM", "Wayland compositor and window manager", "install_hyprland_wm", true, false⟩,
        ⟨"Desktop Portals", "XDG desktop portals for app integration", "install_desktop_portals", true, false⟩,
        ⟨"SDDM Login Manager", "Display manager with themes", "install_display_manager", true, false⟩,
        ⟨"Security Tools", "Keyring and credential management", "install_security_tools", true, false⟩,
        ⟨"Terminal Tools", "Shell utilities and modern CLI tools", "install_terminal_tools", true, false⟩,
        ⟨"Network Tools", "Network utilities and connection management", "install_network_tools", true, false⟩,
        ⟨"File Manager Tools", "System file management utilities", "install_file_manager", true, false⟩,
        ⟨"Multimedia Base", "Audio/video control and image processing", "install_multimedia_base", true, false⟩,
        ⟨"Bluetooth Support", "Core Bluetooth utilities", "install_bluetooth", true, false⟩,
        ⟨"Theming Support", "Icons, themes, and appearance tools", "install_theming", true, false⟩,
        ⟨"Software Management", "Flatpak support", "install_software_management", false, false⟩,
        ⟨"Fonts", "Essential and programming fonts", "install_fonts", true, false⟩,
        ⟨"Zsh Shell", "Z shell with plugins and configuration", "setup_zsh", true, false⟩,
        ⟨"Wallpapers", "Setup wallpapers and themes", "setup_wallpapers", true, false⟩,
        ⟨"Fastfetch", "System information display tool", "setup_fastfetch", true, false⟩,
        ⟨"Dotfiles", "Copy configuration files", "copy_dotfiles", true, true⟩
      ] }
  ]

/-- The entries written by the seeding loop of `initialModel`,
`for category { for step { selectedSteps[step.Function] = step.Selected } }`,
into the entries `init`. -/
def seedEntries (categories : List Category) (init : String → Option Bool) :
    String → Option Bool :=
  categories.foldl
    (fun sel category =>
      category.Steps.foldl (fun sel step => entriesSet sel step.Function step.Selected) sel)
    init

/-- The map of `initialModel`: `selectedSteps := make(map[string]bool)` followed by the seeding
loop.  The map is built by `make`, so it is not nil and none of the writes panics. -/
def seedSelectedSteps (categories : List Category) : GoMap :=
  some (seedEntries categories (fun _ => none))

/-- The `return model{...}` of `initialModel`, for a given catalog: the cursor is
`(0, 0)`, the selection map is seeded from the catalog, every other field has its
zero value. -/
def newModel (categories : List Category) : model :=
  { categories := categories
    currentCategory := 0
    currentStep := 0
    installing := false
    installProgress := ""
    currentStepName := ""
    installComplete := false
    errors := []
    warnings := []
    selectedSteps := seedSelectedSteps categories
    installationStarted := false }

/-- Go `func initialModel() model`. -/
def initialModel : model := newModel builtinCategories

/-! ## `Update` -/

/-- The `case "up", "k":` branch. -/
def keyUp (m : model) : Option model :=
  if m.currentStep > 0 then
    some { m with currentStep := m.currentStep - 1 }
  else if m.currentCategory > 0 then
    match index? m.categories (m.currentCategory - 1) with
    | none => none
    | some category =>
      some { m with currentCategory := m.currentCategory - 1, currentStep := len category.Steps - 1 }
  else some m

/-- The `case "down", "j":` branch. -/
def keyDown (m : model) : Option model :=
  match index? m.categories m.currentCategory with
  | none => none
  | some category =>
    if m.currentStep < len category.Steps - 1 then
      some { m with currentStep := m.currentStep + 1 }
    else if m.currentCategory < len m.categories - 1 then
      some { m with currentCategory := m.currentCategory + 1, currentStep := 0 }
    else some m

/-- The `case "left", "h":` branch. -/
def keyLeft (m : model) : model :=
  if m.currentCategory > 0 then
    { m with currentCategory := m.currentCategory - 1, currentStep := 0 }
  else m

/-- The `case "right", "l":` branch. -/
def keyRight (m : model) : model :=
  if m.currentCategory < len m.categories - 1 then
    { m with currentCategory := m.currentCategory + 1, currentStep := 0 }
  else m

/-- The write `categories[i].Steps[j].Selected = v` through the shared slices
(both indices already checked by the read that precedes it). -/
def setSelected (categories : List Category) (i j : Nat) (v : Bool) : List Category :=
  match categories[i]? with
  | none => categories
  | some category =>
    match category.Steps[j]? with
    | none => categories
    | some step =>
      categories.set i { category with Steps := category.Steps.set j { step with Selected := v } }

/-- The `case "space", " ":` branch. -/
def keySpace (m : model) : Option model :=
  match index? m.categories m.currentCategory with
  | none => none
  | some category =>
    match index? category.Steps m.currentStep with
    | none => none
    | some currentStep =>
      if !currentStep.Required then
        match mapSet m.selectedSteps currentStep.Function
            (!mapGet m.selectedSteps currentStep.Function) with
        | none => none
        | some selectedSteps =>
          some { m with
            selectedSteps := selectedSteps
            categories := setSelected m.categories m.currentCategory.toNat m.currentStep.toNat
              (mapGet selectedSteps currentStep.Function) }
      else some m

/-- Go `func (m model) Update(msg tea.Msg) (tea.Model, tea.Cmd)`. -/
def Update (m : model) (msg : Msg) : Option (model × Cmd) :=
  match msg with
  | Msg.KeyMsg key =>
    if m.installing then
      if key = "q" ∨ key = "ctrl+c" then some (m, Cmd.Quit) else some (m, Cmd.nil)
    else if m.installComplete then some (m, Cmd.Quit)
    else if key = "ctrl+c" ∨ key = "q" then some (m, Cmd.Quit)
    else if key = "up" ∨ key = "k" then (keyUp m).map (fun r => (r, Cmd.nil))
    else if key = "down" ∨ key = "j" then (keyDown m).map (fun r => (r, Cmd.nil))
    else if key = "left" ∨ key = "h" then some (keyLeft m, Cmd.nil)
    else if key = "right" ∨ key = "l" then some (keyRight m, Cmd.nil)
    else if key = "space" ∨ key = " " then (keySpace m).map (fun r => (r, Cmd.nil))
    else if key = "enter" then
      if !m.installationStarted then
        some ({ m with installing := true, installationStarted := true }, Cmd.startInstallation)
      else some (m, Cmd.nil)
    else some (m, Cmd.nil)
  | Msg.installProgressMsg text =>
    some ({ m with installProgress := text }, Cmd.waitForInstallation)
  | Msg.installStepMsg text =>
    some ({ m with currentStepName := text }, Cmd.waitForInstallation)
  | Msg.installCompleteMsg =>
    some ({ m with installComplete := true, installing := false }, Cmd.nil)
  | Msg.installErrorMsg text =>
    some ({ m with errors := m.errors ++ [text] }, Cmd.waitForInstallation)
  | Msg.installWarningMsg text =>
    some ({ m with warnings := m.warnings ++ [text] }, Cmd.waitForInstallation)
  | Msg.other => some (m, Cmd.nil)

/-! ## The plan loop of `runInstallation` -/

/-- One `scriptContent.WriteString` call of the plan loop. -/
inductive ScriptLine where
  | echoInstalling (name : String)
  | invoke (function : String)
  | echo
deriving DecidableEq, Repr

/-- The text each call writes: `fmt.Sprintf("echo \"=== Installing: %s ===\"\n", step.Name)`,
`fmt.Sprintf("%s\n", step.Function)` and `"echo\n"`. -/
def ScriptLine.text : ScriptLine → String
  | ScriptLine.echoInstalling name => "echo \"=== Installing: " ++ name ++ " ===\"\n"
  | ScriptLine.invoke function => function ++ "\n"
  | ScriptLine.echo => "echo\n"

/-- The body of the inner loop: the three writes, guarded by
`step.Required || m.selectedSteps[step.Function]`. -/
def planStep (selectedSteps : GoMap) (script : List ScriptLine) (step : InstallStep) :
    List ScriptLine :=
  if step.Required || mapGet selectedSteps step.Function then
    script ++ [ScriptLine.echoInstalling step.Name, ScriptLine.invoke step.Function, ScriptLine.echo]
  else script

/-- The loop `for _, category := range m.categories { for _, step := range category.Steps {..} }`
of `runInstallation`, as the sequence of writes it makes. -/
def planLoop (m : model) : List ScriptLine :=
  m.categories.foldl (fun script category => category.Steps.foldl (planStep m.selectedSteps) script) []

/-- The step identifiers the plan loop writes into the script, in the order written. -/
def executionPlan (m : model) : List String :=
  (planLoop m).filterMap (fun l => match l with
    | ScriptLine.invoke function => some function
    | _ => none)

/-! ## Go string functions used by the classifier -/

/-- Go `unicode.IsSpace`: in Latin-1 the characters tab, line feed, vertical tab, form feed,
carriage return, space, U+0085 and U+00A0; elsewhere the White_Space property. -/
def unicode.IsSpace (c : Char) : Bool :=
  let r := c.toNat
  if r ≤ 0xFF then
    r = 0x09 || r = 0x0A || r = 0x0B || r = 0x0C || r = 0x0D || r = 0x20 || r = 0x85 || r = 0xA0
  else
    r = 0x1680 || (0x2000 ≤ r && r ≤ 0x200A) || r = 0x2028 || r = 0x2029 || r = 0x202F
      || r = 0x205F || r = 0x3000

namespace strings

/-- Whether `substr` occurs in `s` (character lists). -/
def containsL (s substr : List Char) : Bool :=
  match s with
  | [] => substr.isPrefixOf []
  | c :: t => substr.isPrefixOf (c :: t) || containsL t substr

/-- Go `strings.Contains(s, substr)`. -/
def Contains (s substr : String) : Bool := containsL s.data substr.data

/-- The leftmost occurrence of `old` replaced by `new` (character lists). -/
def replaceFirstL (s old new : List Char) : List Char :=
  match s with
  | [] => if old.isPrefixOf [] then new else []
  | c :: t =>
    if old.isPrefixOf (c :: t) then new ++ (c :: t).drop old.length
    else c :: replaceFirstL t old new

/-- Go `strings.Replace(s, old, new, 1)`. -/
def ReplaceFirst (s old new : String) : String := ⟨replaceFirstL s.data old.data new.data⟩

/-- Leading and trailing white space removed (character lists). -/
def trimSpaceL (s : List Char) : List Char :=
  ((s.dropWhile unicode.IsSpace).reverse.dropWhile unicode.IsSpace).reverse

/-- Go `strings.TrimSpace(s)`. -/
def TrimSpace (s : String) : String := ⟨trimSpaceL s.data⟩

end strings

/-! ## The output classifier of `runInstallation` -/

/-- The four branches of the `if`/`else if` chain in the scanner loop, with the text
each branch prints. -/
inductive Event where
  | StepStarted (name : String)
  | Error (line : String)
  | Warning (line : String)
  | Output (line : String)
deriving DecidableEq, Repr

/-- The `if`/`else if` chain applied to one `scanner.Text()` line. -/
def classify (line : String) : Event :=
  if strings.Contains line "=== Installing:" then
    let stepName := strings.TrimSpace (strings.ReplaceFirst line "=== Installing:" "")
    let stepName := strings.TrimSpace (strings.ReplaceFirst stepName "===" "")
    Event.StepStarted stepName
  else if strings.Contains line "ERROR" || strings.Contains line "error" then
    Event.Error line
  else if strings.Contains line "WARNING" || strings.Contains line "warning" then
    Event.Warning line
  else
    Event.Output line

/-- The `fmt.Printf` of each branch. -/
def Event.printed : Event → String
  | Event.StepStarted name => "STEP: " ++ name ++ "\n"
  | Event.Error line => "ERROR: " ++ line ++ "\n"
  | Event.Warning line => "WARNING: " ++ line ++ "\n"
  | Event.Output line => "OUTPUT: " ++ line ++ "\n"

/-! ## `runInstallation` and the event loop around it -/

/-- What the operating system does during one call of `runInstallation`: the error (if any)
of `os.WriteFile`, `cmd.StdoutPipe` and `cmd.Start`, the lines the scanner yields before it
stops, and the error (if any) of `cmd.Wait`, non-nil for a non-zero exit code. -/
structure Process where
  writeFileErr : Option String
  stdoutPipeErr : Option String
  startErr : Option String
  lines : List String
  waitErr : Option String

/-- The observable effects of one call of `runInstallation`: the plan section of the script it
builds, what it prints on the program's standard output, and the messages it hands to the
event loop. -/
structure RunEffects where
  script : List ScriptLine
  printed : List String
  delivered : List Msg

/-- Go `func (m model) runInstallation()`.  Every branch reports through `fmt.Printf`; the
function holds no reference to the running program and sends it no message. -/
def runInstallation (m : model) (p : Process) : RunEffects :=
  let script := planLoop m
  match p.writeFileErr with
  | some err =>
    { script := script, printed := ["Failed to create install script: " ++ err ++ "\n"], delivered := [] }
  | none =>
    match p.stdoutPipeErr with
    | some err =>
      { script := script, printed := ["Failed to get stdout pipe: " ++ err ++ "\n"], delivered := [] }
    | none =>
      match p.startErr with
      | some err =>
        { script := script, printed := ["Failed to start installation: " ++ err ++ "\n"], delivered := [] }
      | none =>
        let scanned := p.lines.map (fun line => (classify line).printed)
        let final := match p.waitErr with
          | some err => "Installation completed with errors: " ++ err ++ "\n"
          | none => "Installation completed successfully\n"
        { script := script, printed := scanned ++ [final], delivered := [] }

/-- The messages that come back to the event loop when it runs a command: none for `nil` and
for `tea.Quit` (which ends the program); for `startInstallation` the returned
`installProgressMsg("Starting installation...")` together with whatever the started
`runInstallation` goroutine delivers; for `waitForInstallation` the nil message of the tick. -/
def cmdMessages (m : model) (p : Process) : Cmd → List Msg
  | Cmd.nil => []
  | Cmd.Quit => []
  | Cmd.startInstallation =>
    Msg.installProgressMsg "Starting installation..." :: (runInstallation m p).delivered
  | Cmd.waitForInstallation => [Msg.other]

/-- The event loop: each queued message goes through `Update`, and the messages of the
returned command join the queue.  It stops when the queue is empty (or the fuel is spent). -/
def eventLoop (p : Process) : Nat → model → List Msg → Option model
  | 0, m, _ => some m
  | _ + 1, m, [] => some m
  | fuel + 1, m, msg :: queue =>
    match Update m msg with
    | none => none
    | some (m', cmd) => eventLoop p fuel m' (queue ++ cmdMessages m' p cmd)

/-- The messages of a list handled by `Update` one after the other. -/
def runMsgs (m : model) : List Msg → Option model
  | [] => some m
  | msg :: rest =>
    match Update m msg with
    | none => none
    | some (m', _) => runMsgs m' rest

/-! ## Predicates used to state the properties -/

/-- The keys of the four directional branches of `Update`. -/
def navKeys : List String := ["up", "k", "down", "j", "left", "h", "right", "l"]

/-- The run state is Idle: neither `installing` nor `installComplete` is set. -/
def Idle (m : model) : Prop := m.installing = false ∧ m.installComplete = false

/-- The cursor indexes a step of the catalog:
`0 <= currentCategory < len(categories)` and
`0 <= currentStep < len(categories[currentCategory].Steps)`. -/
def InBounds (m : model) : Prop :=
  match index? m.categories m.currentCategory with
  | none => False
  | some category => 0 ≤ m.currentStep ∧ m.currentStep < len category.Steps

instance (m : model) : Decidable (Idle m) := by unfold Idle; infer_instance

instance (m : model) : Decidable (InBounds m) := by
  unfold InBounds; split <;> infer_instance

/-- The step under the cursor, when the cursor is in bounds. -/
def stepAtCursor (m : model) : Option InstallStep :=
  match index? m.categories m.currentCategory with
  | none => none
  | some category => index? category.Steps m.currentStep

/-- All steps of a catalog, category by category and step by step in catalog order. -/
def allSteps (categories : List Category) : List InstallStep :=
  categories.flatMap (fun category => category.Steps)

/-- The plan as the specification words it: the identifiers of all steps in catalog order,
kept when the step is required or its selection-map entry is true. -/
def specPlan (categories : List Category) (selectedSteps : GoMap) : List String :=
  ((allSteps categories).filter
    (fun step => step.Required || mapGet selectedSteps step.Function)).map (fun step => step.Function)

/-- The two-step catalog of the end-to-end scenarios: a required step `core` and an optional,
unselected step `docker`. -/
def scenarioCatalog : List Category :=
  [⟨"Demo", [⟨"core", "", "core", true, true⟩, ⟨"docker", "", "docker", false, false⟩]⟩]

/-- A map after a write that did not panic. -/
def mapPut (m : GoMap) (k : String) (v : Bool) : GoMap :=
  m.map (fun entries => entriesSet entries k v)

/-- The model the space key returns on a step that is not required, when the selection map is
not nil: the entry of the step's identifier is negated and the step's `Selected` flag is set
to the new entry. -/
def toggled (m : model) (step : InstallStep) : model :=
  { m with
    selectedSteps := mapPut m.selectedSteps step.Function (!mapGet m.selectedSteps step.Function)
    categories := setSelected m.categories m.currentCategory.toNat m.currentStep.toNat
      (!mapGet m.selectedSteps step.Function) }

/-- The scenario catalog with the cursor on its optional step `docker` and a nil selection
map, as in a `model` literal that sets no `selectedSteps` field. -/
def nilMapModel : model :=
  { newModel scenarioCatalog with currentStep := 1, selectedSteps := none }

/-- The scenario catalog with the cursor on its optional step `docker` and a made but empty
selection map. -/
def emptyMapModel : model :=
  { newModel scenarioCatalog with currentStep := 1, selectedSteps := mapEmpty }

/-- A word occurs in a line in any combination of upper and lower case letters: the occurrence
test on the line with its letters `A`..`Z` lowered, for a lower-case word. -/
def containsAnyCase (line word : String) : Bool :=
  strings.containsL (line.data.map Char.toLower) word.data

/-- The line the generated script prints to announce a step: the output of
`echo "=== Installing: <name> ==="`. -/
def announcement (name : String) : String := "=== Installing: " ++ name ++ " ==="

/-- A display name with no leading or trailing white space and without `===`. -/
def cleanName (name : String) : Bool :=
  (match name.data.head? with
    | none => true
    | some c => !unicode.IsSpace c) &&
  (match name.data.getLast? with
    | none => true
    | some c => !unicode.IsSpace c) &&
  !strings.Contains name "==="

/-- The external process of end-to-end scenario C: it starts, prints the five lines of the
scenario and exits with code 0. -/
def scenarioProcess : Process :=
  { writeFileErr := none
    stdoutPipeErr := none
    startErr := none
    lines := ["=== Installing: core ===", "OUTPUT line", "ERROR: disk full",
      "=== Installing: docker ===", "WARNING: slow network"]
    waitErr := none }

/-- Step identifiers are unique across the whole catalog. -/
def UniqueIds (categories : List Category) : Prop :=
  ((allSteps categories).map (fun step => step.Function)).Nodup

/-- The selection map agrees with the `Selected` field of every step:
`selectedSteps[step.Function] == step.Selected`. -/
def Consistent (m : model) : Prop :=
  ∀ c ∈ m.categories, ∀ s ∈ c.Steps, mapGet m.selectedSteps s.Function = s.Selected

/-- The invariant of the menu: the cursor is in bounds, no category is empty, identifiers are
unique, the selection map agrees with the `Selected` flags, and the selection map is not nil. -/
def MenuInvariant (m : model) : Prop :=
  InBounds m ∧ (∀ c ∈ m.categories, 0 < c.Steps.length) ∧ UniqueIds m.categories ∧
    Consistent m ∧ m.selectedSteps.isSome = true

/-- The model right after the enter key on `initialModel`: the run state is Running. -/
def runningModel : model :=
  { initialModel with installing := true, installationStarted := true }

/-- The running model after an `installCompleteMsg`: the run state is Complete. -/
def completeModel : model :=
  { runningModel with installComplete := true, installing := false }

/-- The initial model with its cursor moved to `(category, step)`. -/
def cursorAt (category step : Int) : model :=
  { initialModel with currentCategory := category, currentStep := step }

/-! ## Indexing lemmas -/

theorem index?_eq_some {α : Type} {l : List α} {i : Int} {a : α} :
    index? l i = some a ↔ 0 ≤ i ∧ l[i.toNat]? = some a := by
  unfold index?
  by_cases h : i < 0
  · simp only [h, if_true]
    constructor
    · intro hn; cases hn
    · intro hn; omega
  · simp only [h, if_false]
    constructor
    · intro hn; exact ⟨by omega, hn⟩
    · intro hn; exact hn.2

theorem index?_lt {α : Type} {l : List α} {i : Int} {a : α} (h : index? l i = some a) :
    0 ≤ i ∧ i < len l ∧ a ∈ l := by
  rw [index?_eq_some] at h
  obtain ⟨h0, h1⟩ := h
  have h2 := List.getElem?_eq_some.1 h1
  obtain ⟨hlt, heq⟩ := h2
  refine ⟨h0, ?_, ?_⟩
  · unfold len; omega
  · rw [← heq]; exact List.getElem_mem _

theorem index?_exists {α : Type} {l : List α} {i : Int} (h0 : 0 ≤ i) (h1 : i < len l) :
    ∃ a, index? l i = some a := by
  unfold len at h1
  have hlt : i.toNat < l.length := by omega
  exact ⟨l[i.toNat], index?_eq_some.2 ⟨h0, List.getElem?_eq_getElem hlt⟩⟩

theorem inBounds_iff (m : model) :
    InBounds m ↔ ∃ c, index? m.categories m.currentCategory = some c ∧
      0 ≤ m.currentStep ∧ m.currentStep < len c.Steps := by
  unfold InBounds
  cases h : index? m.categories m.currentCategory <;> simp

/-! ## C1: the cursor stays in bounds -/

theorem keyUp_inBounds (m : model) (hsteps : ∀ c ∈ m.categories, 0 < c.Steps.length)
    (hb : InBounds m) :
    ∃ r, keyUp m = some r ∧ r.categories = m.categories ∧ r.installing = m.installing ∧
      r.installComplete = m.installComplete ∧ r.selectedSteps = m.selectedSteps ∧ InBounds r := by
  obtain ⟨c, hc, h0, h1⟩ := (inBounds_iff m).1 hb
  obtain ⟨hc0, hc1, _⟩ := index?_lt hc
  unfold keyUp
  by_cases hs : m.currentStep > 0
  · refine ⟨_, if_pos hs, rfl, rfl, rfl, rfl, ?_⟩
    rw [inBounds_iff]
    exact ⟨c, hc, by show 0 ≤ m.currentStep - 1; omega, by show m.currentStep - 1 < _; omega⟩
  · rw [if_neg hs]
    by_cases hcat : m.currentCategory > 0
    · rw [if_pos hcat]
      obtain ⟨d, hd⟩ := index?_exists (l := m.categories) (i := m.currentCategory - 1)
        (by omega) (by omega)
      rw [hd]
      refine ⟨_, rfl, rfl, rfl, rfl, rfl, ?_⟩
      rw [inBounds_iff]
      refine ⟨d, hd, ?_, ?_⟩
      · have := hsteps d (index?_lt hd).2.2
        show 0 ≤ len d.Steps - 1
        unfold len; omega
      · show len d.Steps - 1 < len d.Steps
        omega
    · rw [if_neg hcat]
      exact ⟨m, rfl, rfl, rfl, rfl, rfl, hb⟩

theorem keyDown_inBounds (m : model) (hsteps : ∀ c ∈ m.categories, 0 < c.Steps.length)
    (hb : InBounds m) :
    ∃ r, keyDown m = some r ∧ r.categories = m.categories ∧ r.installing = m.installing ∧
      r.installComplete = m.installComplete ∧ r.selectedSteps = m.selectedSteps ∧ InBounds r := by
  obtain ⟨c, hc, h0, h1⟩ := (inBounds_iff m).1 hb
  obtain ⟨hc0, hc1, _⟩ := index?_lt hc
  unfold keyDown
  rw [hc]
  by_cases hs : m.currentStep < len c.Steps - 1
  · refine ⟨_, if_pos hs, rfl, rfl, rfl, rfl, ?_⟩
    rw [inBounds_iff]
    exact ⟨c, hc, by show 0 ≤ m.currentStep + 1; omega, by show m.currentStep + 1 < _; omega⟩
  · simp only [if_neg hs]
    by_cases hcat : m.currentCategory < len m.categories - 1
    · rw [if_pos hcat]
      obtain ⟨d, hd⟩ := index?_exists (l := m.categories) (i := m.currentCategory + 1)
        (by omega) (by omega)
      refine ⟨_, rfl, rfl, rfl, rfl, rfl, ?_⟩
      rw [inBounds_iff]
      refine ⟨d, hd, le_refl _, ?_⟩
      have := hsteps d (index?_lt hd).2.2
      show (0 : Int) < len d.Steps
      unfold len; omega
    · rw [if_neg hcat]
      exact ⟨m, rfl, rfl, rfl, rfl, rfl, hb⟩

theorem keyLeft_inBounds (m : model) (hsteps : ∀ c ∈ m.categories, 0 < c.Steps.length)
    (hb : InBounds m) :
    (keyLeft m).categories = m.categories ∧ (keyLeft m).installing = m.installing ∧
      (keyLeft m).installComplete = m.installComplete ∧
      (keyLeft m).selectedSteps = m.selectedSteps ∧ InBounds (keyLeft m) := by
  obtain ⟨c, hc, h0, h1⟩ := (inBounds_iff m).1 hb
  obtain ⟨hc0, hc1, _⟩ := index?_lt hc
  unfold keyLeft
  by_cases hcat : m.currentCategory > 0
  · rw [if_pos hcat]
    obtain ⟨d, hd⟩ := index?_exists (l := m.categories) (i := m.currentCategory - 1)
      (by omega) (by omega)
    refine ⟨rfl, rfl, rfl, rfl, ?_⟩
    rw [inBounds_iff]
    refine ⟨d, hd, le_refl _, ?_⟩
    have := hsteps d (index?_lt hd).2.2
    show (0 : Int) < len d.Steps
    unfold len; omega
  · rw [if_neg hcat]
    exact ⟨rfl, rfl, rfl, rfl, hb⟩

theorem keyRight_inBounds (m : model) (hsteps : ∀ c ∈ m.categories, 0 < c.Steps.length)
    (hb : InBounds m) :
    (keyRight m).categories = m.categories ∧ (keyRight m).installing = m.installing ∧
      (keyRight m).installComplete = m.installComplete ∧
      (keyRight m).selectedSteps = m.selectedSteps ∧ InBounds (keyRight m) := by
  obtain ⟨c, hc, h0, h1⟩ := (inBounds_iff m).1 hb
  obtain ⟨hc0, hc1, _⟩ := index?_lt hc
  unfold keyRight
  by_cases hcat : m.currentCategory < len m.categories - 1
  · rw [if_pos hcat]
    obtain ⟨d, hd⟩ := index?_exists (l := m.categories) (i := m.currentCategory + 1)
      (by omega) (by omega)
    refine ⟨rfl, rfl, rfl, rfl, ?_⟩
    rw [inBounds_iff]
    refine ⟨d, hd, le_refl _, ?_⟩
    have := hsteps d (index?_lt hd).2.2
    show (0 : Int) < len d.Steps
    unfold len; omega
  · rw [if_neg hcat]
    exact ⟨rfl, rfl, rfl, rfl, hb⟩

theorem update_nav (m : model) (k : String) (hk : k ∈ navKeys) (hidle : Idle m)
    (hsteps : ∀ c ∈ m.categories, 0 < c.Steps.length) (hb : InBounds m) :
    ∃ r, Update m (Msg.KeyMsg k) = some (r, Cmd.nil) ∧ r.categories = m.categories ∧
      Idle r ∧ r.selectedSteps = m.selectedSteps ∧ InBounds r := by
  obtain ⟨hi1, hi2⟩ := hidle
  obtain ⟨u, hu, hu1, hu2, hu3, hu4, hu5⟩ := keyUp_inBounds m hsteps hb
  obtain ⟨d, hd, hd1, hd2, hd3, hd4, hd5⟩ := keyDown_inBounds m hsteps hb
  obtain ⟨hl1, hl2, hl3, hl4, hl5⟩ := keyLeft_inBounds m hsteps hb
  obtain ⟨hr1, hr2, hr3, hr4, hr5⟩ := keyRight_inBounds m hsteps hb
  simp only [navKeys, List.mem_cons, List.mem_singleton, List.not_mem_nil, or_false] at hk
  rcases hk with h | h | h | h | h | h | h | h <;> subst h
  · exact ⟨u, by simp [Update, hi1, hi2, hu], hu1, ⟨hu2.trans hi1, hu3.trans hi2⟩, hu4, hu5⟩
  · exact ⟨u, by simp [Update, hi1, hi2, hu], hu1, ⟨hu2.trans hi1, hu3.trans hi2⟩, hu4, hu5⟩
  · exact ⟨d, by simp [Update, hi1, hi2, hd], hd1, ⟨hd2.trans hi1, hd3.trans hi2⟩, hd4, hd5⟩
  · exact ⟨d, by simp [Update, hi1, hi2, hd], hd1, ⟨hd2.trans hi1, hd3.trans hi2⟩, hd4, hd5⟩
  · exact ⟨keyLeft m, by simp [Update, hi1, hi2], hl1, ⟨hl2.trans hi1, hl3.trans hi2⟩, hl4, hl5⟩
  · exact ⟨keyLeft m, by simp [Update, hi1, hi2], hl1, ⟨hl2.trans hi1, hl3.trans hi2⟩, hl4, hl5⟩
  · exact ⟨keyRight m, by simp [Update, hi1, hi2], hr1, ⟨hr2.trans hi1, hr3.trans hi2⟩, hr4, hr5⟩
  · exact ⟨keyRight m, by simp [Update, hi1, hi2], hr1, ⟨hr2.trans hi1, hr3.trans hi2⟩, hr4, hr5⟩

theorem runMsgs_nav (keys : List String) : ∀ (m : model), (∀ k ∈ keys, k ∈ navKeys) → Idle m →
    (∀ c ∈ m.categories, 0 < c.Steps.length) → InBounds m →
    ∃ r, runMsgs m (keys.map Msg.KeyMsg) = some r ∧ r.categories = m.categories ∧
      Idle r ∧ r.selectedSteps = m.selectedSteps ∧ InBounds r := by
  induction keys with
  | nil => intro m _ hi _ hb; exact ⟨m, rfl, rfl, hi, rfl, hb⟩
  | cons k ks ih =>
    intro m hk hi hs hb
    obtain ⟨r, hr, hr1, hr2, hr3, hr4⟩ :=
      update_nav m k (hk k (List.mem_cons_self _ _)) hi hs hb
    obtain ⟨r', hr', h1, h2, h3, h4⟩ :=
      ih r (fun j hj => hk j (List.mem_cons_of_mem _ hj)) hr2 (by rw [hr1]; exact hs) hr4
    refine ⟨r', ?_, h1.trans hr1, h2, h3.trans hr3, h4⟩
    simp only [List.map_cons, runMsgs, hr]
    exact hr'

theorem inBounds_origin (m : model) (hcat : 0 < m.categories.length)
    (hsteps : ∀ c ∈ m.categories, 0 < c.Steps.length)
    (hcur : m.currentCategory = 0 ∧ m.currentStep = 0) : InBounds m := by
  rw [inBounds_iff]
  obtain ⟨c, hc⟩ := index?_exists (l := m.categories) (i := m.currentCategory)
    (by omega) (by unfold len; omega)
  refine ⟨c, hc, by omega, ?_⟩
  have := hsteps c (index?_lt hc).2.2
  unfold len; omega

/-- C1. For a catalog with at least one category, each with at least one step, an idle
model with the cursor at `(0, 0)` handles every finite sequence of up/down/left/right key
presses (`up`, `k`, `down`, `j`, `left`, `h`, `right`, `l`) without a panic, the catalog is
unchanged, and afterwards `0 <= currentCategory < len(categories)` and
`0 <= currentStep < len(categories[currentCategory].Steps)`. -/
theorem C1_cursor_in_bounds (m : model) (keys : List String)
    (hcat : 0 < m.categories.length)
    (hsteps : ∀ c ∈ m.categories, 0 < c.Steps.length)
    (hidle : m.installing = false ∧ m.installComplete = false)
    (hcur : m.currentCategory = 0 ∧ m.currentStep = 0)
    (hkeys : ∀ k ∈ keys, k ∈ navKeys) :
    ∃ r, runMsgs m (keys.map Msg.KeyMsg) = some r ∧ r.categories = m.categories ∧
      0 ≤ r.currentCategory ∧ r.currentCategory < len r.categories ∧
      ∃ c, index? r.categories r.currentCategory = some c ∧
        0 ≤ r.currentStep ∧ r.currentStep < len c.Steps := by
  obtain ⟨r, hr, h1, _, _, h4⟩ :=
    runMsgs_nav keys m hkeys hidle hsteps (inBounds_origin m hcat hsteps hcur)
  obtain ⟨c, hc, h5, h6⟩ := (inBounds_iff r).1 h4
  exact ⟨r, hr, h1, (index?_lt hc).1, (index?_lt hc).2.1, c, hc, h5, h6⟩

/-- C1 at the built-in catalog: `initialModel` meets the hypotheses, and a key sequence that
walks off both ends of the menu leaves the cursor in bounds. -/
theorem C1_cursor_in_bounds_witness :
    (0 < initialModel.categories.length) ∧
    (∀ c ∈ initialModel.categories, 0 < c.Steps.length) ∧
    (initialModel.installing = false ∧ initialModel.installComplete = false) ∧
    (initialModel.currentCategory = 0 ∧ initialModel.currentStep = 0) ∧
    ∃ r, runMsgs initialModel
        (["up", "left", "down", "j", "j", "j", "right", "k", "l", "h", "up"].map Msg.KeyMsg)
          = some r ∧ r.categories = initialModel.categories ∧
      0 ≤ r.currentCategory ∧ r.currentCategory < len r.categories ∧
      ∃ c, index? r.categories r.currentCategory = some c ∧
        0 ≤ r.currentStep ∧ r.currentStep < len c.Steps :=
  ⟨by decide, by decide, ⟨rfl, rfl⟩, ⟨rfl, rfl⟩,
    C1_cursor_in_bounds initialModel _ (by decide) (by decide) ⟨rfl, rfl⟩ ⟨rfl, rfl⟩ (by decide)⟩

/-! ## C2: the plan loop -/

/-- What one step contributes to the script. -/
theorem planStep_eq (sel : GoMap) (script : List ScriptLine) (step : InstallStep) :
    planStep sel script step = script ++ planStep sel [] step := by
  unfold planStep
  split <;> simp

theorem foldl_planStep (sel : GoMap) (steps : List InstallStep) :
    ∀ script : List ScriptLine,
      steps.foldl (planStep sel) script = script ++ steps.flatMap (planStep sel []) := by
  induction steps with
  | nil => intro script; simp
  | cons s ss ih =>
    intro script
    rw [List.foldl_cons, ih, planStep_eq, List.flatMap_cons, List.append_assoc]

theorem foldl_categories (sel : GoMap) (cats : List Category) :
    ∀ script : List ScriptLine,
      cats.foldl (fun script category => category.Steps.foldl (planStep sel) script) script
        = script ++ (allSteps cats).flatMap (planStep sel []) := by
  induction cats with
  | nil => intro script; simp [allSteps]
  | cons c cs ih =>
    intro script
    rw [List.foldl_cons, ih, foldl_planStep]
    simp [allSteps, List.flatMap_append, List.append_assoc]

theorem planLoop_eq (m : model) :
    planLoop m = (allSteps m.categories).flatMap (planStep m.selectedSteps []) := by
  unfold planLoop
  rw [foldl_categories]
  simp

theorem filterMap_invoke_flatMap (sel : GoMap) (steps : List InstallStep) :
    (steps.flatMap (planStep sel [])).filterMap (fun l => match l with
      | ScriptLine.invoke function => some function
      | _ => none)
    = (steps.filter (fun step => step.Required || mapGet sel step.Function)).map
        (fun step => step.Function) := by
  induction steps with
  | nil => simp
  | cons s ss ih =>
    rw [List.flatMap_cons, List.filterMap_append, ih]
    by_cases h : (s.Required || mapGet sel s.Function) = true
    · simp [planStep, h, List.filter_cons]
    · simp [planStep, h, List.filter_cons]

theorem executionPlan_eq (m : model) :
    executionPlan m = specPlan m.categories m.selectedSteps := by
  unfold executionPlan specPlan
  rw [planLoop_eq, filterMap_invoke_flatMap]

theorem mem_allSteps {cats : List Category} {c : Category} {s : InstallStep}
    (hc : c ∈ cats) (hs : s ∈ c.Steps) : s ∈ allSteps cats := by
  unfold allSteps
  exact List.mem_flatMap.2 ⟨c, hc, hs⟩

/-- C2. The identifiers the plan loop of `runInstallation` writes into the script are exactly
those of all steps in catalog order, filtered to the steps with `Required = true` or
`selectedSteps[Function] = true`, and the script it writes is the three lines of each such
step in that order; every required step is in the plan whatever the selection map holds; for
the catalog [core (required), docker (optional, unselected)] the plan is `[core]` without a
toggle and `[core, docker]` after moving to docker and pressing space once. -/
theorem C2_plan_is_filtered_catalog :
    (∀ m : model, executionPlan m
        = ((allSteps m.categories).filter
            (fun step => step.Required || mapGet m.selectedSteps step.Function)).map
              (fun step => step.Function)) ∧
    (∀ m : model, planLoop m
        = ((allSteps m.categories).filter
            (fun step => step.Required || mapGet m.selectedSteps step.Function)).flatMap
              (fun step => [ScriptLine.echoInstalling step.Name, ScriptLine.invoke step.Function,
                ScriptLine.echo])) ∧
    (∀ (m : model) (c : Category) (s : InstallStep), c ∈ m.categories → s ∈ c.Steps →
        s.Required = true → s.Function ∈ executionPlan m) ∧
    executionPlan (newModel scenarioCatalog) = ["core"] ∧
    (runMsgs (newModel scenarioCatalog) [Msg.KeyMsg "down", Msg.KeyMsg " "]).map executionPlan
      = some ["core", "docker"] := by
  refine ⟨fun m => executionPlan_eq m, ?_, ?_, by decide, by decide⟩
  · intro m
    rw [planLoop_eq]
    generalize allSteps m.categories = steps
    induction steps with
    | nil => simp
    | cons s ss ih =>
      rw [List.flatMap_cons, ih]
      by_cases h : (s.Required || mapGet m.selectedSteps s.Function) = true
      · simp [planStep, h, List.filter_cons]
      · simp [planStep, h, List.filter_cons]
  · intro m c s hc hs hr
    rw [executionPlan_eq]
    unfold specPlan
    refine List.mem_map.2 ⟨s, List.mem_filter.2 ⟨mem_allSteps hc hs, ?_⟩, rfl⟩
    simp [hr]

/-! ## C3, C4, C5: the space key -/

theorem stepAtCursor_eq_some {m : model} {step : InstallStep} (h : stepAtCursor m = some step) :
    ∃ c, index? m.categories m.currentCategory = some c ∧
      index? c.Steps m.currentStep = some step := by
  unfold stepAtCursor at h
  cases hc : index? m.categories m.currentCategory with
  | none => rw [hc] at h; cases h
  | some c => rw [hc] at h; exact ⟨c, rfl, h⟩

theorem inBounds_iff_stepAtCursor (m : model) :
    InBounds m ↔ ∃ step, stepAtCursor m = some step := by
  rw [inBounds_iff]
  constructor
  · rintro ⟨c, hc, h0, h1⟩
    obtain ⟨s, hs⟩ := index?_exists h0 h1
    exact ⟨s, by unfold stepAtCursor; rw [hc]; exact hs⟩
  · rintro ⟨s, hs⟩
    obtain ⟨c, hc, hs'⟩ := stepAtCursor_eq_some hs
    exact ⟨c, hc, (index?_lt hs').1, (index?_lt hs').2.1⟩

theorem mapSet_eq_mapPut (sel : GoMap) (k : String) (v : Bool) (h : sel.isSome = true) :
    mapSet sel k v = some (mapPut sel k v) := by
  cases sel with
  | none => cases h
  | some e => rfl

theorem isSome_mapPut (sel : GoMap) (k : String) (v : Bool) :
    (mapPut sel k v).isSome = sel.isSome := by
  cases sel <;> rfl

theorem mapGet_mapPut_self (sel : GoMap) (k : String) (v : Bool) (h : sel.isSome = true) :
    mapGet (mapPut sel k v) k = v := by
  cases sel with
  | none => cases h
  | some e => simp [mapGet, mapPut, entriesGet, entriesSet]

theorem mapLookup_mapPut_other (sel : GoMap) (k : String) (v : Bool) (j : String)
    (h : j ≠ k) : mapLookup (mapPut sel k v) j = mapLookup sel j := by
  cases sel with
  | none => rfl
  | some e => simp [mapLookup, mapPut, entriesSet, h]

theorem mapGet_mapPut_other (sel : GoMap) (k : String) (v : Bool) (j : String)
    (h : j ≠ k) : mapGet (mapPut sel k v) j = mapGet sel j := by
  cases sel with
  | none => rfl
  | some e => simp [mapGet, mapPut, entriesGet, entriesSet, h]

theorem keySpace_required {m : model} {step : InstallStep} (h : stepAtCursor m = some step)
    (hreq : step.Required = true) : keySpace m = some m := by
  obtain ⟨c, hc, hs⟩ := stepAtCursor_eq_some h
  unfold keySpace
  rw [hc]
  simp only [hs]
  simp [hreq]

theorem keySpace_nil {m : model} {step : InstallStep} (h : stepAtCursor m = some step)
    (hreq : step.Required = false) (hnil : m.selectedSteps = none) : keySpace m = none := by
  obtain ⟨c, hc, hs⟩ := stepAtCursor_eq_some h
  unfold keySpace
  rw [hc]
  simp only [hs]
  simp [hreq, hnil, mapSet]

theorem keySpace_eq {m : model} {step : InstallStep} (h : stepAtCursor m = some step)
    (hmade : m.selectedSteps.isSome = true) :
    keySpace m = some (if step.Required = true then m else toggled m step) := by
  obtain ⟨c, hc, hs⟩ := stepAtCursor_eq_some h
  unfold keySpace
  rw [hc]
  simp only [hs]
  cases hr : step.Required
  · simp only [Bool.not_false, if_true, mapSet_eq_mapPut _ _ _ hmade,
      mapGet_mapPut_self _ _ _ hmade, Bool.false_eq_true, if_false]
    rfl
  · simp

theorem update_space {m : model} {key : String} (hkey : key = "space" ∨ key = " ")
    (hidle : Idle m) :
    Update m (Msg.KeyMsg key) = (keySpace m).map (fun r => (r, Cmd.nil)) := by
  obtain ⟨h1, h2⟩ := hidle
  rcases hkey with h | h <;> subst h <;> simp [Update, h1, h2]

/-- C3, as stated, fails on a model whose selection map is nil: `nilMapModel` is idle, its
cursor is in bounds on the optional step `docker`, and for both spellings of the space key
`Update` panics on the write `m.selectedSteps[...] = ...`, so no entry is negated. -/
theorem C3_nil_map_write_panics :
    (nilMapModel.installing = false ∧ nilMapModel.installComplete = false) ∧
    InBounds nilMapModel ∧
    stepAtCursor nilMapModel = some ⟨"docker", "", "docker", false, false⟩ ∧
    Update nilMapModel (Msg.KeyMsg " ") = none ∧
    Update nilMapModel (Msg.KeyMsg "space") = none := by
  have hstep : stepAtCursor nilMapModel = some ⟨"docker", "", "docker", false, false⟩ := by
    decide
  refine ⟨⟨rfl, rfl⟩, by decide, hstep, ?_, ?_⟩
  · rw [update_space (Or.inr rfl) ⟨rfl, rfl⟩, keySpace_nil hstep rfl rfl]
    rfl
  · rw [update_space (Or.inl rfl) ⟨rfl, rfl⟩, keySpace_nil hstep rfl rfl]
    rfl

/-- C3, amended. On an idle model whose selection map is not nil and whose cursor is in bounds
on a step that is not required (`stepAtCursor m = some step`), the space key (`"space"` or
`" "`) is handled without a panic, negates the selection-map entry of that step's identifier
and leaves the entry of every other identifier as it was (same value, same presence); the map
of the returned model is not nil. -/
theorem C3_toggle_flips_exactly_one_entry (m : model) (key : String) (step : InstallStep)
    (hkey : key = "space" ∨ key = " ")
    (hidle : m.installing = false ∧ m.installComplete = false)
    (hmade : m.selectedSteps.isSome = true)
    (hstep : stepAtCursor m = some step)
    (hreq : step.Required = false) :
    ∃ r, Update m (Msg.KeyMsg key) = some (r, Cmd.nil) ∧
      r.selectedSteps.isSome = true ∧
      mapGet r.selectedSteps step.Function = (!mapGet m.selectedSteps step.Function) ∧
      (∀ id : String, id ≠ step.Function →
        mapLookup r.selectedSteps id = mapLookup m.selectedSteps id) ∧
      (∀ id : String, id ≠ step.Function →
        mapGet r.selectedSteps id = mapGet m.selectedSteps id) := by
  refine ⟨toggled m step, ?_, ?_, ?_, ?_, ?_⟩
  · rw [update_space hkey hidle, keySpace_eq hstep hmade]
    simp [hreq]
  · exact (isSome_mapPut _ _ _).trans hmade
  · exact mapGet_mapPut_self _ _ _ hmade
  · intro id hid
    exact mapLookup_mapPut_other _ _ _ _ hid
  · intro id hid
    exact mapGet_mapPut_other _ _ _ _ hid

/-- C3 amended, at the built-in catalog: the first step (NVIDIA Drivers) is optional. -/
theorem C3_toggle_flips_exactly_one_entry_witness :
    InBounds initialModel ∧ initialModel.selectedSteps.isSome = true ∧
    stepAtCursor initialModel = some
      ⟨"NVIDIA Drivers", "Install NVIDIA drivers (will prompt for DKMS, Open, or Nouveau options)",
        "configure_nvidia", false, false⟩ ∧
    ∃ r, Update initialModel (Msg.KeyMsg " ") = some (r, Cmd.nil) ∧
      r.selectedSteps.isSome = true ∧
      mapGet r.selectedSteps "configure_nvidia"
        = (!mapGet initialModel.selectedSteps "configure_nvidia") ∧
      (∀ id : String, id ≠ "configure_nvidia" →
        mapLookup r.selectedSteps id = mapLookup initialModel.selectedSteps id) ∧
      (∀ id : String, id ≠ "configure_nvidia" →
        mapGet r.selectedSteps id = mapGet initialModel.selectedSteps id) :=
  ⟨by decide, rfl, by decide,
    C3_toggle_flips_exactly_one_entry initialModel " "
      ⟨"NVIDIA Drivers", "Install NVIDIA drivers (will prompt for DKMS, Open, or Nouveau options)",
        "configure_nvidia", false, false⟩ (Or.inr rfl) ⟨rfl, rfl⟩ rfl (by decide) rfl⟩

/-- C4. On an idle model whose cursor is in bounds on a required step
(`stepAtCursor m = some step`), the space key is handled without a panic and returns the model
it was given (selection map, every step's `Selected` flag, cursor and all other fields) with
no command; nothing is written, so this holds for a nil selection map too. -/
theorem C4_toggle_required_is_noop (m : model) (key : String) (step : InstallStep)
    (hkey : key = "space" ∨ key = " ")
    (hidle : m.installing = false ∧ m.installComplete = false)
    (hstep : stepAtCursor m = some step)
    (hreq : step.Required = true) :
    Update m (Msg.KeyMsg key) = some (m, Cmd.nil) := by
  rw [update_space hkey hidle, keySpace_required hstep hreq]
  rfl

/-- C4 at the two-step scenario catalog, whose first step `core` is required. -/
theorem C4_toggle_required_is_noop_witness :
    InBounds (newModel scenarioCatalog) ∧
    stepAtCursor (newModel scenarioCatalog) = some ⟨"core", "", "core", true, true⟩ ∧
    Update (newModel scenarioCatalog) (Msg.KeyMsg "space")
      = some (newModel scenarioCatalog, Cmd.nil) :=
  ⟨by decide, by decide,
    C4_toggle_required_is_noop (newModel scenarioCatalog) "space"
      ⟨"core", "", "core", true, true⟩ (Or.inl rfl) ⟨rfl, rfl⟩ (by decide) rfl⟩

theorem getElem?_set_same {α : Type} (l : List α) (n : Nat) (a b : α) (h : l[n]? = some a) :
    (l.set n b)[n]? = some b := by
  induction l generalizing n with
  | nil => simp at h
  | cons x xs ih =>
    cases n with
    | zero => simp
    | succ k =>
      simp only [List.getElem?_cons_succ] at h
      simp only [List.set_cons_succ, List.getElem?_cons_succ]
      exact ih k h

theorem map_set_of_eq {α β : Type} (f : α → β) (l : List α) (n : Nat) (a b : α)
    (h : l[n]? = some a) (hf : f b = f a) : (l.set n b).map f = l.map f := by
  induction l generalizing n with
  | nil => simp
  | cons x xs ih =>
    cases n with
    | zero =>
      simp only [List.getElem?_cons_zero, Option.some.injEq] at h
      subst h
      simp [hf]
    | succ k =>
      simp only [List.getElem?_cons_succ] at h
      simp only [List.set_cons_succ, List.map_cons, ih k h]

theorem setSelected_eq {cats : List Category} {i j : Nat} {c : Category} {s : InstallStep}
    (hc : cats[i]? = some c) (hs : c.Steps[j]? = some s) (v : Bool) :
    setSelected cats i j v
      = cats.set i { c with Steps := c.Steps.set j { s with Selected := v } } := by
  unfold setSelected
  simp only [hc, hs]

theorem stepAtCursor_toggled {m : model} {step : InstallStep}
    (h : stepAtCursor m = some step) :
    stepAtCursor (toggled m step)
      = some { step with Selected := !mapGet m.selectedSteps step.Function } := by
  obtain ⟨c, hc, hs⟩ := stepAtCursor_eq_some h
  obtain ⟨hc0, hc1⟩ := index?_eq_some.1 hc
  obtain ⟨hs0, hs1⟩ := index?_eq_some.1 hs
  have hcat : index? (toggled m step).categories (toggled m step).currentCategory
      = some (Category.mk c.Name (c.Steps.set m.currentStep.toNat
          { step with Selected := !mapGet m.selectedSteps step.Function })) := by
    rw [index?_eq_some]
    refine ⟨hc0, ?_⟩
    show (setSelected m.categories _ _ _)[m.currentCategory.toNat]? = _
    rw [setSelected_eq hc1 hs1]
    exact getElem?_set_same _ _ _ _ hc1
  unfold stepAtCursor
  rw [hcat]
  rw [index?_eq_some]
  exact ⟨hs0, getElem?_set_same _ _ _ _ hs1⟩

theorem allSteps_flatMap {β : Type} (g : InstallStep → List β) (cats : List Category) :
    (allSteps cats).flatMap g = (cats.map (fun c => c.Steps.flatMap g)).flatten := by
  induction cats with
  | nil => simp [allSteps]
  | cons c cs ih =>
    simp only [allSteps, List.flatMap_cons, List.flatMap_append, List.map_cons,
      List.flatten_cons] at ih ⊢
    rw [ih]

/-- The script lines depend on the catalog only through each step's name, identifier and
`Required` flag: rewriting a `Selected` flag leaves them as they were. -/
theorem planLines_setSelected (sel : GoMap) (cats : List Category) (i j : Nat)
    (v : Bool) :
    (allSteps (setSelected cats i j v)).flatMap (planStep sel [])
      = (allSteps cats).flatMap (planStep sel []) := by
  cases hc : cats[i]? with
  | none => simp only [setSelected, hc]
  | some c =>
    cases hs : c.Steps[j]? with
    | none => simp only [setSelected, hc, hs]
    | some s =>
      rw [setSelected_eq hc hs]
      rw [allSteps_flatMap, allSteps_flatMap]
      congr 1
      apply map_set_of_eq _ _ _ c _ hc
      show (c.Steps.set j _).flatMap _ = c.Steps.flatMap _
      rw [List.flatMap_def, List.flatMap_def]
      congr 1
      exact map_set_of_eq _ _ _ s _ hs rfl

theorem planStep_congr {sel sel' : GoMap}
    (h : ∀ id, mapGet sel id = mapGet sel' id) : planStep sel [] = planStep sel' [] := by
  funext s
  unfold planStep
  rw [h]

theorem planLoop_congr {m r : model}
    (hsel : ∀ id, mapGet r.selectedSteps id = mapGet m.selectedSteps id)
    (hcat : ∀ sel : GoMap,
      (allSteps r.categories).flatMap (planStep sel [])
        = (allSteps m.categories).flatMap (planStep sel [])) :
    planLoop r = planLoop m := by
  rw [planLoop_eq, planLoop_eq, planStep_congr hsel, hcat]

theorem toggled_twice_get (sel : GoMap) (f : String) (id : String) :
    mapGet (mapPut (mapPut sel f (!mapGet sel f)) f
      (!mapGet (mapPut sel f (!mapGet sel f)) f)) id = mapGet sel id := by
  cases sel with
  | none => rfl
  | some e =>
    by_cases h : id = f
    · subst h
      simp [mapGet, mapPut, entriesGet, entriesSet]
    · simp [mapGet, mapPut, entriesGet, entriesSet, h]

theorem toggled_twice_lookup (sel : GoMap) (f : String) (id : String) (h : id ≠ f) :
    mapLookup (mapPut (mapPut sel f (!mapGet sel f)) f
      (!mapGet (mapPut sel f (!mapGet sel f)) f)) id = mapLookup sel id := by
  rw [mapLookup_mapPut_other _ _ _ _ h, mapLookup_mapPut_other _ _ _ _ h]

theorem toggled_twice_present (sel : GoMap) (f : String)
    (h : (mapLookup sel f).isSome = true) :
    mapPut (mapPut sel f (!mapGet sel f)) f (!mapGet (mapPut sel f (!mapGet sel f)) f) = sel := by
  cases sel with
  | none => cases h
  | some e =>
    obtain ⟨b, hb⟩ := Option.isSome_iff_exists.1 h
    have hb' : e f = some b := hb
    show some _ = some e
    congr 1
    funext id
    by_cases hid : id = f
    · subst hid
      simp [mapGet, mapPut, entriesGet, entriesSet, hb']
    · simp [entriesSet, hid]

/-- C5, as stated, fails in two ways.  On `nilMapModel` (idle, cursor in bounds on the optional
step `docker`, nil selection map) the first space key panics.  On `emptyMapModel` (the same
with a made but empty map) both space keys are handled, but the selection map afterwards is not
the original one: the identifier `docker`, which was not a key, is now a key with the value
`false`. -/
theorem C5_map_not_restored :
    (nilMapModel.installing = false ∧ nilMapModel.installComplete = false) ∧
    stepAtCursor nilMapModel = some ⟨"docker", "", "docker", false, false⟩ ∧
    Update nilMapModel (Msg.KeyMsg " ") = none ∧
    (emptyMapModel.installing = false ∧ emptyMapModel.installComplete = false) ∧
    stepAtCursor emptyMapModel = some ⟨"docker", "", "docker", false, false⟩ ∧
    mapLookup emptyMapModel.selectedSteps "docker" = none ∧
    ∃ r1 r2, Update emptyMapModel (Msg.KeyMsg " ") = some (r1, Cmd.nil) ∧
      Update r1 (Msg.KeyMsg " ") = some (r2, Cmd.nil) ∧
      mapLookup r2.selectedSteps "docker" = some false ∧
      r2.selectedSteps ≠ emptyMapModel.selectedSteps := by
  have hstep : stepAtCursor nilMapModel = some ⟨"docker", "", "docker", false, false⟩ := by
    decide
  have hstep2 : stepAtCursor emptyMapModel = some ⟨"docker", "", "docker", false, false⟩ := by
    decide
  have hstep3 := stepAtCursor_toggled hstep2
  refine ⟨⟨rfl, rfl⟩, hstep, ?_, ⟨rfl, rfl⟩, hstep2, rfl,
    toggled emptyMapModel ⟨"docker", "", "docker", false, false⟩,
    toggled (toggled emptyMapModel ⟨"docker", "", "docker", false, false⟩)
      ⟨"docker", "", "docker", true, false⟩, ?_, ?_, ?_, ?_⟩
  · rw [update_space (Or.inr rfl) ⟨rfl, rfl⟩, keySpace_nil hstep rfl rfl]
    rfl
  · rw [update_space (Or.inr rfl) ⟨rfl, rfl⟩, keySpace_eq hstep2 rfl]
    rfl
  · rw [update_space (Or.inr rfl) ⟨rfl, rfl⟩, keySpace_eq hstep3 rfl]
    rfl
  · decide
  · intro h
    have h2 := congrArg (fun sel => mapLookup sel "docker") h
    revert h2
    decide

/-- C5, amended. On an idle model whose selection map is not nil and whose cursor is in bounds
on a step that is not required (`stepAtCursor m = some step`), two space keys in a row are both
handled without a panic and give a model with the script lines and the execution plan of the
original model, and with a selection map that reads at every identifier as the original one
does and has the entry of every identifier other than the toggled one untouched; when the
toggled identifier was a key of the original map (as every catalog identifier is after
`initialModel`) the selection map equals the original selection map. -/
theorem C5_double_toggle_restores_plan (m : model) (key1 key2 : String) (step : InstallStep)
    (hkey1 : key1 = "space" ∨ key1 = " ")
    (hkey2 : key2 = "space" ∨ key2 = " ")
    (hidle : m.installing = false ∧ m.installComplete = false)
    (hmade : m.selectedSteps.isSome = true)
    (hstep : stepAtCursor m = some step)
    (hreq : step.Required = false) :
    ∃ r1 r2, Update m (Msg.KeyMsg key1) = some (r1, Cmd.nil) ∧
      Update r1 (Msg.KeyMsg key2) = some (r2, Cmd.nil) ∧
      executionPlan r2 = executionPlan m ∧
      planLoop r2 = planLoop m ∧
      (∀ id : String, mapGet r2.selectedSteps id = mapGet m.selectedSteps id) ∧
      (∀ id : String, id ≠ step.Function →
        mapLookup r2.selectedSteps id = mapLookup m.selectedSteps id) ∧
      ((mapLookup m.selectedSteps step.Function).isSome = true →
        r2.selectedSteps = m.selectedSteps) := by
  have h1 : Update m (Msg.KeyMsg key1) = some (toggled m step, Cmd.nil) := by
    rw [update_space hkey1 hidle, keySpace_eq hstep hmade]
    simp [hreq]
  have hstep1 := stepAtCursor_toggled hstep
  have hidle1 : Idle (toggled m step) := hidle
  have hmade1 : (toggled m step).selectedSteps.isSome = true :=
    (isSome_mapPut _ _ _).trans hmade
  have h2 : Update (toggled m step) (Msg.KeyMsg key2)
      = some (toggled (toggled m step)
          { step with Selected := !mapGet m.selectedSteps step.Function }, Cmd.nil) := by
    rw [update_space hkey2 hidle1, keySpace_eq hstep1 hmade1]
    simp [hreq]
  have hget : ∀ id : String,
      mapGet (toggled (toggled m step)
        { step with Selected := !mapGet m.selectedSteps step.Function }).selectedSteps id
        = mapGet m.selectedSteps id := fun id => toggled_twice_get m.selectedSteps step.Function id
  have hloop : planLoop (toggled (toggled m step)
        { step with Selected := !mapGet m.selectedSteps step.Function }) = planLoop m := by
    apply planLoop_congr hget
    intro sel
    show (allSteps (setSelected (setSelected m.categories _ _ _) _ _ _)).flatMap _ = _
    rw [planLines_setSelected, planLines_setSelected]
  refine ⟨_, _, h1, h2, ?_, hloop, hget, ?_, ?_⟩
  · unfold executionPlan
    rw [hloop]
  · intro id hid
    exact toggled_twice_lookup m.selectedSteps step.Function id hid
  · intro hp
    exact toggled_twice_present m.selectedSteps step.Function hp

/-- C5 amended, at the built-in catalog, cursor on its first step, whose identifier is a key of
the seeded map: the map after two space keys is the original map. -/
theorem C5_double_toggle_restores_plan_witness :
    initialModel.selectedSteps.isSome = true ∧
    stepAtCursor initialModel = some
      ⟨"NVIDIA Drivers", "Install NVIDIA drivers (will prompt for DKMS, Open, or Nouveau options)",
        "configure_nvidia", false, false⟩ ∧
    (mapLookup initialModel.selectedSteps "configure_nvidia").isSome = true ∧
    ∃ r1 r2, Update initialModel (Msg.KeyMsg "space") = some (r1, Cmd.nil) ∧
      Update r1 (Msg.KeyMsg " ") = some (r2, Cmd.nil) ∧
      executionPlan r2 = executionPlan initialModel ∧
      planLoop r2 = planLoop initialModel ∧
      (∀ id : String, mapGet r2.selectedSteps id = mapGet initialModel.selectedSteps id) ∧
      (∀ id : String, id ≠ "configure_nvidia" →
        mapLookup r2.selectedSteps id = mapLookup initialModel.selectedSteps id) ∧
      ((mapLookup initialModel.selectedSteps "configure_nvidia").isSome = true →
        r2.selectedSteps = initialModel.selectedSteps) :=
  ⟨rfl, by decide, by decide,
    C5_double_toggle_restores_plan initialModel "space" " "
      ⟨"NVIDIA Drivers", "Install NVIDIA drivers (will prompt for DKMS, Open, or Nouveau options)",
        "configure_nvidia", false, false⟩ (Or.inl rfl) (Or.inr rfl) ⟨rfl, rfl⟩ rfl (by decide)
      rfl⟩

/-! ## C6, C7: the classifier's priority and its markers -/

/-- C6. The classifier is a total function of the line with the priority step marker, then
error marker, then warning marker, then plain: a line containing `=== Installing:` is a
step-start event and neither an error nor a warning event, whatever else it contains; without
the step marker, a line containing `ERROR` or `error` is an error event; without step and
error marker, a line containing `WARNING` or `warning` is a warning event; every other line
is plain output. -/
theorem C6_classifier_priority (line : String) :
    (strings.Contains line "=== Installing:" = true →
      (∃ name, classify line = Event.StepStarted name) ∧
      (∀ text, classify line ≠ Event.Error text) ∧
      (∀ text, classify line ≠ Event.Warning text) ∧
      (∀ text, classify line ≠ Event.Output text)) ∧
    (strings.Contains line "=== Installing:" = false →
      (strings.Contains line "ERROR" = true ∨ strings.Contains line "error" = true) →
      classify line = Event.Error line) ∧
    (strings.Contains line "=== Installing:" = false →
      strings.Contains line "ERROR" = false → strings.Contains line "error" = false →
      (strings.Contains line "WARNING" = true ∨ strings.Contains line "warning" = true) →
      classify line = Event.Warning line) ∧
    (strings.Contains line "=== Installing:" = false →
      strings.Contains line "ERROR" = false → strings.Contains line "error" = false →
      strings.Contains line "WARNING" = false → strings.Contains line "warning" = false →
      classify line = Event.Output line) := by
  refine ⟨?_, ?_, ?_, ?_⟩
  · intro h
    simp [classify, h]
  · intro h he
    rcases he with he | he <;> simp [classify, h, he]
  · intro h he1 he2 hw
    rcases hw with hw | hw <;> simp [classify, h, he1, he2, hw]
  · intro h he1 he2 hw1 hw2
    simp [classify, h, he1, he2, hw1, hw2]

/-- C6 on a step-marker line that also carries the words `error` and `WARNING`. -/
theorem C6_classifier_priority_witness :
    strings.Contains "=== Installing: error WARNING ===" "=== Installing:" = true ∧
    strings.Contains "=== Installing: error WARNING ===" "error" = true ∧
    strings.Contains "=== Installing: error WARNING ===" "WARNING" = true ∧
    classify "=== Installing: error WARNING ===" = Event.StepStarted "error WARNING" ∧
    ((∃ name, classify "=== Installing: error WARNING ===" = Event.StepStarted name) ∧
      (∀ text, classify "=== Installing: error WARNING ===" ≠ Event.Error text) ∧
      (∀ text, classify "=== Installing: error WARNING ===" ≠ Event.Warning text) ∧
      (∀ text, classify "=== Installing: error WARNING ===" ≠ Event.Output text)) :=
  ⟨by decide, by decide, by decide, by decide,
    (C6_classifier_priority "=== Installing: error WARNING ===").1 (by decide)⟩

/-- C7, as stated, fails: `Error: disk full` has no step marker and contains the letters
e-r-r-o-r in mixed case, yet it is classified as plain output, not as an error; likewise
`Warning: slow network` is plain output, not a warning. -/
theorem C7_mixed_case_not_matched :
    strings.Contains "Error: disk full" "=== Installing:" = false ∧
    containsAnyCase "Error: disk full" "error" = true ∧
    classify "Error: disk full" = Event.Output "Error: disk full" ∧
    classify "Error: disk full" ≠ Event.Error "Error: disk full" ∧
    strings.Contains "Warning: slow network" "=== Installing:" = false ∧
    containsAnyCase "Warning: slow network" "error" = false ∧
    containsAnyCase "Warning: slow network" "warning" = true ∧
    classify "Warning: slow network" = Event.Output "Warning: slow network" ∧
    classify "Warning: slow network" ≠ Event.Warning "Warning: slow network" := by
  decide

/-- C7, amended. The markers are matched in exactly two spellings each, all upper case or all
lower case.  A line is an error event if and only if it does not contain the step marker and
contains `ERROR` or `error`; a line is a warning event if and only if it contains neither the
step marker nor `ERROR` nor `error` and contains `WARNING` or `warning`; either event carries
the line itself.  A line whose only spelling of the word is another one (`Error`, `Warning`)
is therefore neither. -/
theorem C7_markers_two_spellings (line : String) :
    ((∃ text, classify line = Event.Error text) ↔
      (strings.Contains line "=== Installing:" = false ∧
        (strings.Contains line "ERROR" = true ∨ strings.Contains line "error" = true))) ∧
    ((∃ text, classify line = Event.Warning text) ↔
      (strings.Contains line "=== Installing:" = false ∧
        strings.Contains line "ERROR" = false ∧ strings.Contains line "error" = false ∧
        (strings.Contains line "WARNING" = true ∨ strings.Contains line "warning" = true))) ∧
    (∀ text, classify line = Event.Error text → text = line) ∧
    (∀ text, classify line = Event.Warning text → text = line) := by
  unfold classify
  cases hs : strings.Contains line "=== Installing:" <;>
  cases he1 : strings.Contains line "ERROR" <;>
  cases he2 : strings.Contains line "error" <;>
  cases hw1 : strings.Contains line "WARNING" <;>
  cases hw2 : strings.Contains line "warning" <;>
  simp

/-- C7 amended, on the lines of the end-to-end scenario and on their mixed-case spellings: the
upper-case lines are an error and a warning event, the mixed-case ones are neither. -/
theorem C7_markers_two_spellings_witness :
    classify "ERROR: disk full" = Event.Error "ERROR: disk full" ∧
    classify "WARNING: slow network" = Event.Warning "WARNING: slow network" ∧
    (¬ ∃ text, classify "Error: disk full" = Event.Error text) ∧
    (¬ ∃ text, classify "Warning: slow network" = Event.Warning text) := by
  refine ⟨by decide, by decide, ?_, ?_⟩
  · rw [(C7_markers_two_spellings "Error: disk full").1]
    decide
  · rw [(C7_markers_two_spellings "Warning: slow network").2.1]
    decide

/-! ## C8: the step announcement is decoded back to the step name -/

theorem isPrefixOf_append_self (p r : List Char) : p.isPrefixOf (p ++ r) = true := by
  rw [List.isPrefixOf_iff_prefix]
  exact List.prefix_append p r

theorem containsL_of_isPrefixOf (s p : List Char) (h : p.isPrefixOf s = true) :
    strings.containsL s p = true := by
  cases s with
  | nil => simpa [strings.containsL] using h
  | cons c t => simp [strings.containsL, h]

theorem replaceFirstL_of_isPrefixOf (s old new : List Char) (h : old.isPrefixOf s = true) :
    strings.replaceFirstL s old new = new ++ s.drop old.length := by
  cases s with
  | nil =>
    have : old = [] := by cases old <;> simp_all [List.isPrefixOf]
    subst this
    simp [strings.replaceFirstL]
  | cons c t => simp [strings.replaceFirstL, h]

theorem trimSpaceL_space_cons (s : List Char) :
    strings.trimSpaceL (' ' :: s) = strings.trimSpaceL s := by
  have h : unicode.IsSpace ' ' = true := by decide
  simp [strings.trimSpaceL, List.dropWhile_cons, h]

/-- White space is only removed at the two ends: a text that neither starts nor ends with
white space is left as it is. -/
theorem trimSpaceL_of_clean (s : List Char)
    (hhead : ∀ c, s.head? = some c → unicode.IsSpace c = false)
    (hlast : ∀ c, s.getLast? = some c → unicode.IsSpace c = false) :
    strings.trimSpaceL s = s := by
  unfold strings.trimSpaceL
  have h1 : s.dropWhile unicode.IsSpace = s := by
    cases s with
    | nil => rfl
    | cons c t => simp [List.dropWhile_cons, hhead c rfl]
  rw [h1]
  have h2 : s.reverse.dropWhile unicode.IsSpace = s.reverse := by
    cases hr : s.reverse with
    | nil => rfl
    | cons c t =>
      have hc : s.getLast? = some c := by
        rw [List.getLast?_eq_head?_reverse, hr]
        rfl
      simp [List.dropWhile_cons, hlast c hc]
  rw [h2, List.reverse_reverse]

theorem replaceFirstL_closing (n : List Char) (h : strings.containsL n ['=', '=', '='] = false) :
    strings.replaceFirstL (n ++ [' ', '=', '=', '=']) ['=', '=', '='] [] = n ++ [' '] := by
  induction n with
  | nil => decide
  | cons a t ih =>
    simp only [strings.containsL, Bool.or_eq_false_iff] at h
    obtain ⟨hp, ht⟩ := h
    have hnp : List.isPrefixOf ['=', '=', '='] (a :: (t ++ [' ', '=', '=', '='])) = false := by
      cases t with
      | nil => simp [List.isPrefixOf]
      | cons b t1 =>
        cases t1 with
        | nil => simp [List.isPrefixOf]
        | cons c t2 => simpa [List.isPrefixOf] using hp
    rw [List.cons_append, strings.replaceFirstL]
    simp only [hnp, Bool.false_eq_true, if_false]
    rw [ih ht]
    rfl

theorem trimSpaceL_append_space (s : List Char)
    (hhead : ∀ c, s.head? = some c → unicode.IsSpace c = false)
    (hlast : ∀ c, s.getLast? = some c → unicode.IsSpace c = false) :
    strings.trimSpaceL (s ++ [' ']) = s := by
  cases s with
  | nil => decide
  | cons a t =>
    have hsp : unicode.IsSpace ' ' = true := by decide
    have h2 : (a :: t).reverse.dropWhile unicode.IsSpace = (a :: t).reverse := by
      cases hr : (a :: t).reverse with
      | nil => rfl
      | cons c u =>
        have hc : (a :: t).getLast? = some c := by
          rw [List.getLast?_eq_head?_reverse, hr]
          rfl
        simp [List.dropWhile_cons, hlast c hc]
    unfold strings.trimSpaceL
    rw [List.cons_append, List.dropWhile_cons, hhead a rfl]
    simp only [Bool.false_eq_true, if_false]
    rw [← List.cons_append, List.reverse_append, List.reverse_singleton, List.singleton_append,
      List.dropWhile_cons, hsp]
    simp only [if_true]
    rw [h2, List.reverse_reverse]

theorem classify_announcement (name : String) (h : cleanName name = true) :
    classify (announcement name) = Event.StepStarted name := by
  obtain ⟨n⟩ := name
  by_cases hn : n = []
  · subst hn
    decide
  simp only [cleanName, strings.Contains, Bool.and_eq_true, Bool.not_eq_true'] at h
  obtain ⟨⟨hh, hl⟩, hc⟩ := h
  have hhead : ∀ c, n.head? = some c → unicode.IsSpace c = false := by
    intro c hcn
    rw [hcn] at hh
    simpa using hh
  have hlast : ∀ c, n.getLast? = some c → unicode.IsSpace c = false := by
    intro c hcn
    rw [hcn] at hl
    simpa using hl
  have hline : (announcement ⟨n⟩).data
      = "=== Installing:".data ++ (' ' :: (n ++ [' ', '=', '=', '='])) := by
    simp [announcement]
  have hcont : strings.Contains (announcement ⟨n⟩) "=== Installing:" = true := by
    unfold strings.Contains
    rw [hline]
    exact containsL_of_isPrefixOf _ _ (isPrefixOf_append_self _ _)
  have h1 : strings.replaceFirstL (announcement ⟨n⟩).data "=== Installing:".data []
      = ' ' :: (n ++ [' ', '=', '=', '=']) := by
    rw [hline, replaceFirstL_of_isPrefixOf _ _ _ (isPrefixOf_append_self _ _)]
    simp
  have h2 : strings.trimSpaceL (' ' :: (n ++ [' ', '=', '=', '='])) = n ++ [' ', '=', '=', '='] := by
    rw [trimSpaceL_space_cons]
    cases n with
    | nil => exact absurd rfl hn
    | cons a t =>
      apply trimSpaceL_of_clean
      · intro c hcn
        exact hhead c hcn
      · intro c hcn
        have : ((a :: t) ++ [' ', '=', '=', '=']).getLast? = some '=' := by
          rw [show [' ', '=', '=', '='] = [' ', '=', '='] ++ ['='] from rfl, ← List.append_assoc,
            List.getLast?_append]
          rfl
        rw [this] at hcn
        cases hcn
        decide
  have h3 := replaceFirstL_closing n hc
  have h4 := trimSpaceL_append_space n hhead hlast
  unfold classify
  rw [if_pos hcont]
  simp only [strings.TrimSpace, strings.ReplaceFirst]
  rw [h1, h2]
  show Event.StepStarted ⟨strings.trimSpaceL (strings.replaceFirstL _ ['=', '=', '='] [])⟩ = _
  rw [h3, h4]

theorem builtin_names_clean :
    ∀ c ∈ builtinCategories, ∀ s ∈ c.Steps, cleanName s.Name = true := by
  decide

/-- C8. The script generator writes, for a step, an `echo` of the announcement line
`=== Installing: <name> ===`; for every display name with no leading or trailing white space
and without `===`, the classifier turns that line into `StepStarted` with exactly the name;
every step name of the built-in catalog is such a name and is decoded back. -/
theorem C8_announcement_roundtrip :
    (∀ name : String, ScriptLine.text (ScriptLine.echoInstalling name)
        = "echo \"" ++ announcement name ++ "\"\n") ∧
    (∀ name : String, cleanName name = true →
        classify (announcement name) = Event.StepStarted name) ∧
    (∀ c ∈ builtinCategories, ∀ s ∈ c.Steps,
        cleanName s.Name = true ∧ classify (announcement s.Name) = Event.StepStarted s.Name) := by
  refine ⟨?_, classify_announcement, ?_⟩
  · intro name
    have e : "echo \"=== Installing: " = "echo \"" ++ "=== Installing: " := by decide
    simp only [ScriptLine.text, announcement, String.append_assoc]
    rw [e, String.append_assoc]
    have e2 : " ===\"\n" = " ===" ++ "\"\n" := by decide
    rw [e2]
  · intro c hc s hs
    exact ⟨builtin_names_clean c hc s hs, classify_announcement _ (builtin_names_clean c hc s hs)⟩

/-- C8 on the two announcement lines of the end-to-end scenario. -/
theorem C8_announcement_roundtrip_witness :
    cleanName "core" = true ∧
    classify "=== Installing: core ===" = Event.StepStarted "core" ∧
    classify "=== Installing: docker ===" = Event.StepStarted "docker" :=
  ⟨by decide, C8_announcement_roundtrip.2.1 "core" (by decide),
    C8_announcement_roundtrip.2.1 "docker" (by decide)⟩

/-! ## C9: what `runInstallation` hands to the event loop -/

theorem runInstallation_delivered (m : model) (p : Process) :
    (runInstallation m p).delivered = [] := by
  unfold runInstallation
  cases p.writeFileErr <;> cases p.stdoutPipeErr <;> cases p.startErr <;> rfl

theorem eventLoop_enter (p : Process) (m : model) (fuel : Nat)
    (hidle : m.installing = false ∧ m.installComplete = false)
    (hnot : m.installationStarted = false) :
    ∃ r, eventLoop p (fuel + 1) m [Msg.KeyMsg "enter"] = some r ∧
      r.installing = true ∧ r.installComplete = false ∧ r.errors = m.errors ∧
      r.warnings = m.warnings ∧ r.currentStepName = m.currentStepName := by
  obtain ⟨h1, h2⟩ := hidle
  rcases fuel with _ | _ | _ | fuel <;>
    simp [eventLoop, Update, cmdMessages, runInstallation_delivered, h1, h2, hnot]

/-- C9, evaluated on the code. `runInstallation` reports only through `fmt.Printf`: for every
model and every behaviour of the external process (any output lines, any exit code) it
delivers no message to the event loop, so no `installCompleteMsg` either.  `Update` does set
`installComplete = true` and `installing = false` when it is given an `installCompleteMsg`,
but after the enter key the event loop only ever sees the "Starting installation..." message
and the nil message of the tick: it comes to rest with `installing = true` and
`installComplete = false`, and with no error, warning or step name recorded.  On the scenario
stream the five lines are classified and printed, followed by the success line. -/
theorem C9_run_complete_never_delivered :
    (∀ (m : model) (p : Process), (runInstallation m p).delivered = []) ∧
    (∀ (m : model) (p : Process) (c : Cmd),
        Msg.installCompleteMsg ∉ cmdMessages m p c) ∧
    (∀ m : model, ∃ r, Update m Msg.installCompleteMsg = some (r, Cmd.nil) ∧
        r.installComplete = true ∧ r.installing = false) ∧
    (∀ (p : Process) (m : model) (fuel : Nat),
        m.installing = false → m.installComplete = false → m.installationStarted = false →
        ∃ r, eventLoop p (fuel + 1) m [Msg.KeyMsg "enter"] = some r ∧
          r.installing = true ∧ r.installComplete = false ∧ r.errors = m.errors ∧
          r.warnings = m.warnings ∧ r.currentStepName = m.currentStepName) ∧
    (runInstallation initialModel scenarioProcess).printed
      = ["STEP: core\n", "OUTPUT: OUTPUT line\n", "ERROR: ERROR: disk full\n",
         "STEP: docker\n", "WARNING: WARNING: slow network\n",
         "Installation completed successfully\n"] ∧
    (eventLoop scenarioProcess 100 initialModel [Msg.KeyMsg "enter"]).map
        (fun r => (r.installing, r.installComplete, r.errors, r.warnings, r.currentStepName))
      = some (true, false, [], [], "") := by
  refine ⟨runInstallation_delivered, ?_, ?_, ?_, by decide, by decide⟩
  · intro m p c
    cases c <;> simp [cmdMessages, runInstallation_delivered]
  · intro m
    exact ⟨_, rfl, rfl, rfl⟩
  · intro p m fuel h1 h2 h3
    exact eventLoop_enter p m fuel ⟨h1, h2⟩ h3

/-! ## C10: the selection map and the `Selected` flags agree -/

/-- Writing one step of one category is writing one position of the flattened catalog. -/
theorem allSteps_set (cats : List Category) : ∀ (i j : Nat) (c : Category) (s x : InstallStep),
    cats[i]? = some c → c.Steps[j]? = some s →
    ∃ k, (allSteps cats)[k]? = some s ∧
      allSteps (cats.set i { c with Steps := c.Steps.set j x }) = (allSteps cats).set k x := by
  induction cats with
  | nil => intro i j c s x hc; simp at hc
  | cons c0 rest ih =>
    intro i j c s x hc hs
    have hj : j < c.Steps.length := (List.getElem?_eq_some.1 hs).1
    cases i with
    | zero =>
      simp only [List.getElem?_cons_zero, Option.some.injEq] at hc
      subst hc
      refine ⟨j, ?_, ?_⟩
      · simp only [allSteps, List.flatMap_cons]
        rw [List.getElem?_append_left hj]
        exact hs
      · simp only [allSteps, List.set_cons_zero, List.flatMap_cons]
        rw [List.set_append_left _ _ hj]
    | succ i1 =>
      simp only [List.getElem?_cons_succ] at hc
      obtain ⟨k, hk, hset⟩ := ih i1 j c s x hc hs
      refine ⟨c0.Steps.length + k, ?_, ?_⟩
      · simp only [allSteps, List.flatMap_cons] at hk ⊢
        rw [List.getElem?_append_right (Nat.le_add_right _ _), Nat.add_sub_cancel_left]
        exact hk
      · simp only [allSteps, List.set_cons_succ, List.flatMap_cons] at hset ⊢
        rw [List.set_append_right _ _ (Nat.le_add_right _ _), Nat.add_sub_cancel_left, hset]

/-- In a list whose keys are pairwise distinct, after one position is overwritten every
element is the new one or an old one with a key other than the overwritten element's. -/
theorem mem_set_of_nodup {α β : Type} (f : α → β) (l : List α) :
    ∀ (k : Nat) (a x b : α), (l.map f).Nodup → l[k]? = some a → b ∈ l.set k x →
      b = x ∨ (b ∈ l ∧ f b ≠ f a) := by
  induction l with
  | nil => intro k a x b _ hk; simp at hk
  | cons y ys ih =>
    intro k a x b hnd hk hb
    rw [List.map_cons, List.nodup_cons] at hnd
    obtain ⟨hy, hnd'⟩ := hnd
    cases k with
    | zero =>
      simp only [List.getElem?_cons_zero, Option.some.injEq] at hk
      subst hk
      simp only [List.set_cons_zero, List.mem_cons] at hb
      rcases hb with hb | hb
      · exact Or.inl hb
      · refine Or.inr ⟨List.mem_cons_of_mem _ hb, ?_⟩
        intro he
        exact hy (he ▸ List.mem_map_of_mem f hb)
    | succ k1 =>
      simp only [List.getElem?_cons_succ] at hk
      simp only [List.set_cons_succ, List.mem_cons] at hb
      rcases hb with hb | hb
      · subst hb
        refine Or.inr ⟨List.mem_cons_self _ _, ?_⟩
        intro he
        have ha : a ∈ ys := by
          obtain ⟨hlt, heq⟩ := List.getElem?_eq_some.1 hk
          rw [← heq]
          exact List.getElem_mem _
        exact hy (he ▸ List.mem_map_of_mem f ha)
      · rcases ih k1 a x b hnd' hk hb with h | ⟨h1, h2⟩
        · exact Or.inl h
        · exact Or.inr ⟨List.mem_cons_of_mem _ h1, h2⟩

theorem consistent_iff (m : model) :
    Consistent m ↔
      ∀ s ∈ allSteps m.categories, mapGet m.selectedSteps s.Function = s.Selected := by
  unfold Consistent allSteps
  constructor
  · intro h s hs
    obtain ⟨c, hc, hs'⟩ := List.mem_flatMap.1 hs
    exact h c hc s hs'
  · intro h c hc s hs
    exact h s (List.mem_flatMap.2 ⟨c, hc, hs⟩)

theorem seed_foldl (cats : List Category) : ∀ init : String → Option Bool,
    cats.foldl (fun sel category =>
        category.Steps.foldl (fun sel step => entriesSet sel step.Function step.Selected) sel) init
      = (allSteps cats).foldl (fun sel step => entriesSet sel step.Function step.Selected) init := by
  induction cats with
  | nil => intro init; rfl
  | cons c cs ih =>
    intro init
    simp only [List.foldl_cons, allSteps, List.flatMap_cons, List.foldl_append] at ih ⊢
    rw [ih]

theorem seed_not_mem (l : List InstallStep) : ∀ (init : String → Option Bool) (k : String),
    k ∉ l.map (fun step => step.Function) →
    l.foldl (fun sel step => entriesSet sel step.Function step.Selected) init k = init k := by
  induction l with
  | nil => intro init k _; rfl
  | cons y ys ih =>
    intro init k hk
    simp only [List.map_cons, List.mem_cons, not_or] at hk
    rw [List.foldl_cons, ih _ k hk.2, show entriesSet init y.Function y.Selected k = init k from by simp [entriesSet, hk.1]]

/-- The seeding loop gives every step of a catalog with unique identifiers an entry equal to
its `Selected` field. -/
theorem seed_get (l : List InstallStep) : ∀ (init : String → Option Bool),
    (l.map (fun step => step.Function)).Nodup → ∀ s ∈ l,
    entriesGet (l.foldl (fun sel step => entriesSet sel step.Function step.Selected) init) s.Function
      = s.Selected := by
  induction l with
  | nil => intro init _ s hs; simp at hs
  | cons y ys ih =>
    intro init hnd s hs
    rw [List.map_cons, List.nodup_cons] at hnd
    rw [List.foldl_cons]
    rcases List.mem_cons.1 hs with h | h
    · subst h
      unfold entriesGet
      rw [seed_not_mem ys _ _ hnd.1]
      simp [entriesSet]
    · exact ih _ hnd.2 s h

theorem newModel_consistent (cats : List Category) (h : UniqueIds cats) :
    Consistent (newModel cats) := by
  rw [consistent_iff]
  intro s hs
  show entriesGet (seedEntries cats (fun _ => none)) s.Function = s.Selected
  unfold seedEntries
  rw [seed_foldl]
  exact seed_get _ _ h s hs

theorem toggled_invariant {m : model} {step : InstallStep} (hinv : MenuInvariant m)
    (hstep : stepAtCursor m = some step) : MenuInvariant (toggled m step) := by
  obtain ⟨_, hne, huniq, hcons, hmade⟩ := hinv
  obtain ⟨c, hc, hs⟩ := stepAtCursor_eq_some hstep
  obtain ⟨_, hc1⟩ := index?_eq_some.1 hc
  obtain ⟨_, hs1⟩ := index?_eq_some.1 hs
  have hcats : (toggled m step).categories
      = m.categories.set m.currentCategory.toNat
          (Category.mk c.Name (c.Steps.set m.currentStep.toNat
              { step with Selected := !mapGet m.selectedSteps step.Function })) := by
    show setSelected m.categories _ _ _ = _
    rw [setSelected_eq hc1 hs1]
  obtain ⟨k, hk, hall⟩ := allSteps_set m.categories _ _ c step
    ({ step with Selected := !mapGet m.selectedSteps step.Function }) hc1 hs1
  rw [← hcats] at hall
  refine ⟨?_, ?_, ?_, ?_, (isSome_mapPut _ _ _).trans hmade⟩
  · exact (inBounds_iff_stepAtCursor _).2 ⟨_, stepAtCursor_toggled hstep⟩
  · intro c' hc'
    rw [hcats] at hc'
    rcases List.mem_or_eq_of_mem_set hc' with h | h
    · exact hne c' h
    · subst h
      have := hne c (index?_lt hc).2.2
      simpa using this
  · unfold UniqueIds
    rw [hall, map_set_of_eq (fun st : InstallStep => st.Function) _ _ step
      ({ step with Selected := !mapGet m.selectedSteps step.Function }) hk rfl]
    exact huniq
  · rw [consistent_iff] at hcons ⊢
    intro s hsmem
    rw [hall] at hsmem
    show mapGet (mapPut m.selectedSteps step.Function _) s.Function = s.Selected
    rcases mem_set_of_nodup (fun st : InstallStep => st.Function) _ k step _ s huniq hk hsmem
      with h | ⟨h1, h2⟩
    · subst h
      exact mapGet_mapPut_self _ _ _ hmade
    · rw [mapGet_mapPut_other _ _ _ _ h2]
      exact hcons s h1

theorem update_invariant (m : model) (msg : Msg) (hinv : MenuInvariant m) :
    ∃ r c, Update m msg = some (r, c) ∧ MenuInvariant r := by
  have hsame : ∀ r : model, r.categories = m.categories → r.selectedSteps = m.selectedSteps →
      InBounds r → MenuInvariant r := by
    intro r h1 h2 h3
    obtain ⟨_, hne, hu, hcons, hmade⟩ := hinv
    refine ⟨h3, by rw [h1]; exact hne, by rw [h1]; exact hu, ?_, by rw [h2]; exact hmade⟩
    unfold Consistent
    rw [h1, h2]
    exact hcons
  have hb : InBounds m := hinv.1
  obtain ⟨u, hu0, hu1, _, _, hu4, hu5⟩ := keyUp_inBounds m hinv.2.1 hb
  obtain ⟨d, hd0, hd1, _, _, hd4, hd5⟩ := keyDown_inBounds m hinv.2.1 hb
  obtain ⟨hl1, _, _, hl4, hl5⟩ := keyLeft_inBounds m hinv.2.1 hb
  obtain ⟨hr1, _, _, hr4, hr5⟩ := keyRight_inBounds m hinv.2.1 hb
  obtain ⟨step, hstep⟩ := (inBounds_iff_stepAtCursor m).1 hb
  have hsp : MenuInvariant (if step.Required = true then m else toggled m step) := by
    split
    · exact hinv
    · exact toggled_invariant hinv hstep
  cases msg with
  | KeyMsg key =>
    have hsp0 := keySpace_eq hstep hinv.2.2.2.2
    unfold Update
    dsimp only
    by_cases h1 : m.installing = true
    · rw [if_pos h1]
      by_cases h2 : key = "q" ∨ key = "ctrl+c"
      · rw [if_pos h2]; exact ⟨_, _, rfl, hinv⟩
      · rw [if_neg h2]; exact ⟨_, _, rfl, hinv⟩
    rw [if_neg h1]
    by_cases h2 : m.installComplete = true
    · rw [if_pos h2]; exact ⟨_, _, rfl, hinv⟩
    rw [if_neg h2]
    by_cases h3 : key = "ctrl+c" ∨ key = "q"
    · rw [if_pos h3]; exact ⟨_, _, rfl, hinv⟩
    rw [if_neg h3]
    by_cases h4 : key = "up" ∨ key = "k"
    · rw [if_pos h4, hu0]; exact ⟨_, _, rfl, hsame _ hu1 hu4 hu5⟩
    rw [if_neg h4]
    by_cases h5 : key = "down" ∨ key = "j"
    · rw [if_pos h5, hd0]; exact ⟨_, _, rfl, hsame _ hd1 hd4 hd5⟩
    rw [if_neg h5]
    by_cases h6 : key = "left" ∨ key = "h"
    · rw [if_pos h6]; exact ⟨_, _, rfl, hsame _ hl1 hl4 hl5⟩
    rw [if_neg h6]
    by_cases h7 : key = "right" ∨ key = "l"
    · rw [if_pos h7]; exact ⟨_, _, rfl, hsame _ hr1 hr4 hr5⟩
    rw [if_neg h7]
    by_cases h8 : key = "space" ∨ key = " "
    · rw [if_pos h8, hsp0]; exact ⟨_, _, rfl, hsp⟩
    rw [if_neg h8]
    by_cases h9 : key = "enter"
    · rw [if_pos h9]
      by_cases h10 : (!m.installationStarted) = true
      · rw [if_pos h10]; exact ⟨_, _, rfl, hsame _ rfl rfl hb⟩
      · rw [if_neg h10]; exact ⟨_, _, rfl, hinv⟩
    rw [if_neg h9]
    exact ⟨_, _, rfl, hinv⟩
  | installProgressMsg text => exact ⟨_, _, rfl, hsame _ rfl rfl hb⟩
  | installStepMsg text => exact ⟨_, _, rfl, hsame _ rfl rfl hb⟩
  | installCompleteMsg => exact ⟨_, _, rfl, hsame _ rfl rfl hb⟩
  | installErrorMsg text => exact ⟨_, _, rfl, hsame _ rfl rfl hb⟩
  | installWarningMsg text => exact ⟨_, _, rfl, hsame _ rfl rfl hb⟩
  | other => exact ⟨_, _, rfl, hinv⟩

theorem runMsgs_invariant (msgs : List Msg) : ∀ m : model, MenuInvariant m →
    ∃ r, runMsgs m msgs = some r ∧ MenuInvariant r := by
  induction msgs with
  | nil => intro m h; exact ⟨m, rfl, h⟩
  | cons msg rest ih =>
    intro m h
    obtain ⟨r, c, hr, hinv⟩ := update_invariant m msg h
    obtain ⟨r', hr', hinv'⟩ := ih r hinv
    exact ⟨r', by simp only [runMsgs, hr]; exact hr', hinv'⟩

theorem builtin_uniqueIds : UniqueIds builtinCategories := by
  unfold UniqueIds
  decide

theorem initialModel_invariant : MenuInvariant initialModel :=
  ⟨by decide, by decide, builtin_uniqueIds, newModel_consistent _ builtin_uniqueIds, rfl⟩

/-- C10. Every finite sequence of messages is handled by `Update` from `initialModel` without
a panic, and in the state reached `selectedSteps[step.Function]` equals `step.Selected` for
every step of every category; the identifiers of the built-in catalog are unique, which is
what the space key relies on. -/
theorem C10_selection_map_consistent (msgs : List Msg) :
    UniqueIds initialModel.categories ∧
    ∃ r, runMsgs initialModel msgs = some r ∧
      ∀ c ∈ r.categories, ∀ s ∈ c.Steps, mapGet r.selectedSteps s.Function = s.Selected := by
  obtain ⟨r, hr, hinv⟩ := runMsgs_invariant msgs initialModel initialModel_invariant
  exact ⟨builtin_uniqueIds, r, hr, hinv.2.2.2.1⟩

/-! ## C11: keys outside the Idle state -/

/-- C11. When `installing` or `installComplete` is set, `Update` returns for every key message
the model it was given, unchanged in every field; while `installing` the command is
`tea.Quit` exactly for the keys `q` and `ctrl+c` and nil for every other key; while
`installComplete` is set and `installing` is not, the command is `tea.Quit` for every key. -/
theorem C11_keys_inert_when_not_idle (m : model) (key : String)
    (hrun : m.installing = true ∨ m.installComplete = true) :
    ∃ c, Update m (Msg.KeyMsg key) = some (m, c) ∧
      (m.installing = true →
        (c = Cmd.Quit ↔ (key = "q" ∨ key = "ctrl+c")) ∧
        (¬ (key = "q" ∨ key = "ctrl+c") → c = Cmd.nil)) ∧
      (m.installing = false → c = Cmd.Quit) := by
  by_cases hi : m.installing = true
  · by_cases hq : key = "q" ∨ key = "ctrl+c"
    · refine ⟨Cmd.Quit, ?_, ?_, ?_⟩
      · unfold Update
        dsimp only
        rw [if_pos hi, if_pos hq]
      · intro _
        exact ⟨⟨fun _ => hq, fun _ => rfl⟩, fun hn => absurd hq hn⟩
      · intro hf
        exact absurd (hi.symm.trans hf) (by decide)
    · refine ⟨Cmd.nil, ?_, ?_, ?_⟩
      · unfold Update
        dsimp only
        rw [if_pos hi, if_neg hq]
      · intro _
        refine ⟨⟨fun h => ?_, fun h => absurd h hq⟩, fun _ => rfl⟩
        cases h
      · intro hf
        exact absurd (hi.symm.trans hf) (by decide)
  · have hc : m.installComplete = true := by
      rcases hrun with h | h
      · exact absurd h hi
      · exact h
    refine ⟨Cmd.Quit, ?_, ?_, ?_⟩
    · unfold Update
      dsimp only
      rw [if_neg hi, if_pos hc]
    · intro h
      exact absurd h hi
    · intro _
      rfl

/-- C11 on the built-in catalog: while running, `down` changes nothing and gives no command,
`q` quits; once complete, `down` quits. -/
theorem C11_keys_inert_when_not_idle_witness :
    runningModel.installing = true ∧
    Update runningModel (Msg.KeyMsg "down") = some (runningModel, Cmd.nil) ∧
    Update runningModel (Msg.KeyMsg "q") = some (runningModel, Cmd.Quit) ∧
    (completeModel.installing = false ∧ completeModel.installComplete = true) ∧
    Update completeModel (Msg.KeyMsg "down") = some (completeModel, Cmd.Quit) := by
  refine ⟨rfl, ?_, ?_, ⟨rfl, rfl⟩, ?_⟩
  · obtain ⟨c, hc, h1, _⟩ := C11_keys_inert_when_not_idle runningModel "down" (Or.inl rfl)
    rw [hc, (h1 rfl).2 (by decide)]
  · obtain ⟨c, hc, h1, _⟩ := C11_keys_inert_when_not_idle runningModel "q" (Or.inl rfl)
    rw [hc, (h1 rfl).1.2 (Or.inl rfl)]
  · obtain ⟨c, hc, _, h2⟩ := C11_keys_inert_when_not_idle completeModel "down" (Or.inr rfl)
    rw [hc, h2 rfl]

/-! ## C12, C13: the down key and its inverse -/

theorem update_down {m : model} {key : String} (hkey : key = "down" ∨ key = "j")
    (hidle : Idle m) :
    Update m (Msg.KeyMsg key) = (keyDown m).map (fun r => (r, Cmd.nil)) := by
  obtain ⟨h1, h2⟩ := hidle
  rcases hkey with h | h <;> subst h <;> simp [Update, h1, h2]

theorem update_up {m : model} {key : String} (hkey : key = "up" ∨ key = "k")
    (hidle : Idle m) :
    Update m (Msg.KeyMsg key) = (keyUp m).map (fun r => (r, Cmd.nil)) := by
  obtain ⟨h1, h2⟩ := hidle
  rcases hkey with h | h <;> subst h <;> simp [Update, h1, h2]

/-- C12. On an idle model whose cursor is in bounds (`category` being the category under the
cursor), the down key (`down` or `j`) is handled without a panic and leaves the selection map
and the catalog as they were; the cursor becomes `(currentCategory, currentStep + 1)` when
`currentStep` is not the last step of the category, else `(currentCategory + 1, 0)` when
`currentCategory` is not the last category, else the model is returned unchanged. -/
theorem C12_down_key_cases (m : model) (key : String) (category : Category)
    (hkey : key = "down" ∨ key = "j")
    (hidle : m.installing = false ∧ m.installComplete = false)
    (hb : InBounds m)
    (hcat : index? m.categories m.currentCategory = some category) :
    ∃ r, Update m (Msg.KeyMsg key) = some (r, Cmd.nil) ∧
      r.selectedSteps = m.selectedSteps ∧ r.categories = m.categories ∧
      (m.currentStep < len category.Steps - 1 →
        r.currentCategory = m.currentCategory ∧ r.currentStep = m.currentStep + 1) ∧
      (m.currentStep = len category.Steps - 1 → m.currentCategory < len m.categories - 1 →
        r.currentCategory = m.currentCategory + 1 ∧ r.currentStep = 0) ∧
      (m.currentStep = len category.Steps - 1 → m.currentCategory = len m.categories - 1 →
        r = m) := by
  obtain ⟨c, hc, h0, h1⟩ := (inBounds_iff m).1 hb
  rw [hcat] at hc
  cases hc
  obtain ⟨hc0, hc1, _⟩ := index?_lt hcat
  rw [update_down hkey hidle]
  unfold keyDown
  rw [hcat]
  by_cases hs : m.currentStep < len category.Steps - 1
  · refine ⟨{ m with currentStep := m.currentStep + 1 }, by simp only [if_pos hs, Option.map],
      rfl, rfl, fun _ => ⟨rfl, rfl⟩, ?_, ?_⟩
    · intro he; omega
    · intro he; omega
  · by_cases hl : m.currentCategory < len m.categories - 1
    · refine ⟨{ m with currentCategory := m.currentCategory + 1, currentStep := 0 },
        by simp only [if_neg hs, if_pos hl, Option.map], rfl, rfl, ?_,
        fun _ _ => ⟨rfl, rfl⟩, ?_⟩
      · intro h; exact absurd h hs
      · intro _ he; omega
    · refine ⟨m, by simp only [if_neg hs, if_neg hl, Option.map], rfl, rfl, ?_, ?_,
        fun _ _ => rfl⟩
      · intro h; exact absurd h hs
      · intro _ h; exact absurd h hl

/-- C12 on the built-in catalog: from `(0, 0)` the down key moves to `(0, 1)`. -/
theorem C12_down_key_cases_witness :
    InBounds initialModel ∧
    ∃ r, Update initialModel (Msg.KeyMsg "down") = some (r, Cmd.nil) ∧
      r.currentCategory = 0 ∧ r.currentStep = 1 ∧
      r.selectedSteps = initialModel.selectedSteps := by
  refine ⟨by decide, ?_⟩
  obtain ⟨r, hr, hsel, _, h1, _, _⟩ :=
    C12_down_key_cases initialModel "down" (builtinCategories.get ⟨0, by decide⟩) (Or.inl rfl)
      ⟨rfl, rfl⟩ (by decide) (by decide)
  have h := h1 (by decide)
  exact ⟨r, hr, h.1, h.2, hsel⟩

theorem keyDown_keyUp (m : model) (category : Category) (hb : InBounds m)
    (hcat : index? m.categories m.currentCategory = some category)
    (hnot : ¬ (m.currentCategory = len m.categories - 1 ∧
      m.currentStep = len category.Steps - 1)) :
    ∃ r, keyDown m = some r ∧ keyUp r = some m := by
  obtain ⟨c, hc, h0, h1⟩ := (inBounds_iff m).1 hb
  rw [hcat] at hc
  cases hc
  obtain ⟨hc0, hc1, _⟩ := index?_lt hcat
  unfold keyDown
  rw [hcat]
  by_cases hs : m.currentStep < len category.Steps - 1
  · refine ⟨{ m with currentStep := m.currentStep + 1 }, by simp only [if_pos hs], ?_⟩
    unfold keyUp
    have hpos : m.currentStep + 1 > 0 := by omega
    simp only [if_pos hpos, Int.add_sub_cancel]
  · have hl : m.currentCategory < len m.categories - 1 := by
      by_contra hl
      exact hnot ⟨by omega, by omega⟩
    refine ⟨{ m with currentCategory := m.currentCategory + 1, currentStep := 0 },
      by simp only [if_neg hs, if_pos hl], ?_⟩
    unfold keyUp
    have hz : ¬ ((0 : Int) > 0) := by omega
    have hpos : m.currentCategory + 1 > 0 := by omega
    have hlast : len category.Steps - 1 = m.currentStep := by omega
    simp only [if_neg hz, if_pos hpos, Int.add_sub_cancel, hcat, hlast]

theorem keyUp_keyDown (m : model) (hb : InBounds m)
    (hnot : ¬ (m.currentCategory = 0 ∧ m.currentStep = 0)) :
    ∃ r, keyUp m = some r ∧ keyDown r = some m := by
  obtain ⟨c, hc, h0, h1⟩ := (inBounds_iff m).1 hb
  obtain ⟨hc0, hc1, _⟩ := index?_lt hc
  unfold keyUp
  by_cases hs : m.currentStep > 0
  · refine ⟨{ m with currentStep := m.currentStep - 1 }, by simp only [if_pos hs], ?_⟩
    unfold keyDown
    have hlt : m.currentStep - 1 < len c.Steps - 1 := by omega
    simp only [hc, if_pos hlt, Int.sub_add_cancel]
  · have hcpos : m.currentCategory > 0 := by
      by_contra hcpos
      exact hnot ⟨by omega, by omega⟩
    obtain ⟨d, hd⟩ := index?_exists (l := m.categories) (i := m.currentCategory - 1)
      (by omega) (by omega)
    refine ⟨{ m with currentCategory := m.currentCategory - 1, currentStep := len d.Steps - 1 },
      by simp only [if_neg hs, if_pos hcpos, hd], ?_⟩
    unfold keyDown
    have hirr : ¬ (len d.Steps - 1 < len d.Steps - 1) := by omega
    have hlt : m.currentCategory - 1 < len m.categories - 1 := by omega
    have hzero : (0 : Int) = m.currentStep := by omega
    simp only [hd, if_neg hirr, if_pos hlt, Int.sub_add_cancel, hzero]

/-- C13. In a catalog whose categories all have at least one step, on an idle model with the
cursor in bounds (`category` being the category under the cursor): when the cursor is not on
the last step of the last category, the down key followed by the up key is handled without a
panic, passes through an in-bounds cursor and returns the original model, so the original
`(currentCategory, currentStep)`; when the cursor is not `(0, 0)`, the up key followed by the
down key does the same. -/
theorem C13_down_up_roundtrip (m : model) (kd ku : String) (category : Category)
    (hkd : kd = "down" ∨ kd = "j")
    (hku : ku = "up" ∨ ku = "k")
    (hsteps : ∀ c ∈ m.categories, 0 < c.Steps.length)
    (hidle : m.installing = false ∧ m.installComplete = false)
    (hb : InBounds m)
    (hcat : index? m.categories m.currentCategory = some category) :
    (¬ (m.currentCategory = len m.categories - 1 ∧ m.currentStep = len category.Steps - 1) →
      ∃ r1 r2, Update m (Msg.KeyMsg kd) = some (r1, Cmd.nil) ∧ InBounds r1 ∧
        Update r1 (Msg.KeyMsg ku) = some (r2, Cmd.nil) ∧
        r2.currentCategory = m.currentCategory ∧ r2.currentStep = m.currentStep ∧ r2 = m) ∧
    (¬ (m.currentCategory = 0 ∧ m.currentStep = 0) →
      ∃ r1 r2, Update m (Msg.KeyMsg ku) = some (r1, Cmd.nil) ∧ InBounds r1 ∧
        Update r1 (Msg.KeyMsg kd) = some (r2, Cmd.nil) ∧
        r2.currentCategory = m.currentCategory ∧ r2.currentStep = m.currentStep ∧ r2 = m) := by
  constructor
  · intro hnot
    obtain ⟨r, hr, hback⟩ := keyDown_keyUp m category hb hcat hnot
    obtain ⟨r', hr', _, hi1, hi2, _, hb'⟩ := keyDown_inBounds m hsteps hb
    rw [hr] at hr'
    cases hr'
    have hidle1 : Idle r := ⟨hi1.trans hidle.1, hi2.trans hidle.2⟩
    refine ⟨r, m, ?_, hb', ?_, rfl, rfl, rfl⟩
    · rw [update_down hkd hidle, hr]
      rfl
    · rw [update_up hku hidle1, hback]
      rfl
  · intro hnot
    obtain ⟨r, hr, hback⟩ := keyUp_keyDown m hb hnot
    obtain ⟨r', hr', _, hi1, hi2, _, hb'⟩ := keyUp_inBounds m hsteps hb
    rw [hr] at hr'
    cases hr'
    have hidle1 : Idle r := ⟨hi1.trans hidle.1, hi2.trans hidle.2⟩
    refine ⟨r, m, ?_, hb', ?_, rfl, rfl, rfl⟩
    · rw [update_up hku hidle, hr]
      rfl
    · rw [update_down hkd hidle1, hback]
      rfl

/-- C13 on the built-in catalog, across a category boundary: from `(0, 2)`, the last step of
the first category, down then up comes back; from `(1, 0)`, up then down comes back. -/
theorem C13_down_up_roundtrip_witness :
    (∀ c ∈ (cursorAt 0 2).categories, 0 < c.Steps.length) ∧
    InBounds (cursorAt 0 2) ∧ InBounds (cursorAt 1 0) ∧
    (∃ r1 r2, Update (cursorAt 0 2) (Msg.KeyMsg "down") = some (r1, Cmd.nil) ∧ InBounds r1 ∧
        Update r1 (Msg.KeyMsg "up") = some (r2, Cmd.nil) ∧
        r2.currentCategory = 0 ∧ r2.currentStep = 2 ∧ r2 = cursorAt 0 2) ∧
    (∃ r1 r2, Update (cursorAt 1 0) (Msg.KeyMsg "k") = some (r1, Cmd.nil) ∧ InBounds r1 ∧
        Update r1 (Msg.KeyMsg "j") = some (r2, Cmd.nil) ∧
        r2.currentCategory = 1 ∧ r2.currentStep = 0 ∧ r2 = cursorAt 1 0) :=
  ⟨by decide, by decide, by decide,
    (C13_down_up_roundtrip (cursorAt 0 2) "down" "up" (builtinCategories.get ⟨0, by decide⟩)
      (Or.inl rfl) (Or.inl rfl) (by decide) ⟨rfl, rfl⟩ (by decide) (by decide)).1 (by decide),
    (C13_down_up_roundtrip (cursorAt 1 0) "j" "k" (builtinCategories.get ⟨1, by decide⟩)
      (Or.inr rfl) (Or.inr rfl) (by decide) ⟨rfl, rfl⟩ (by decide) (by decide)).2 (by decide)⟩


end Dotfiles
